import Mathlib

/-!
A verification development for the brilopt compiler-pass library.

The Rust sources (src/parse.rs, src/dataflow.rs, src/analyze.rs, src/lvn.rs,
src/optimize.rs, src/ssa.rs, src/util.rs) are shallowly embedded below.
Rust `HashMap`/`HashSet` containers are modelled as association lists with
HashMap insert-overwrite semantics (`insertA`/`lookupA`) respectively as
insertion-ordered duplicate-free lists or `Finset`s; where the Rust code's
behaviour depends on hash-iteration order, the embedding fixes a canonical
deterministic order (insertion order for maps, the lexicographic minimum
for `HashSet::iter().find`).  Unbounded `loop`/worklist constructs are
embedded with an explicit fuel parameter (`none` = fuel exhausted) so that
the embedding stays executable; termination of the original loop is then a
theorem stating that some fuel suffices.  Rust panics (`unwrap`, `expect`,
indexing past the end) are modelled by `Option`/`PRes.panic` results.
-/

namespace Brilopt

/-- Association-list lookup: value of the first entry with the given key.
Models `HashMap` lookup for maps built with `insertA` (whose keys stay
duplicate-free). -/
def lookupA {κ α : Type} [DecidableEq κ] (m : List (κ × α)) (k : κ) : Option α :=
  (m.find? (fun p => decide (p.1 = k))).map Prod.snd

/-- Association-list insert with `HashMap::insert` semantics: replace the
entry if the key is present, otherwise append it. -/
def insertA {κ α : Type} [DecidableEq κ] (m : List (κ × α)) (k : κ) (v : α) : List (κ × α) :=
  if (m.find? (fun p => decide (p.1 = k))).isSome then
    m.map (fun p => if p.1 = k then (k, v) else p)
  else m ++ [(k, v)]

/-- List-as-set insert, modelling `HashSet::insert` with insertion order. -/
def insertS (l : List String) (x : String) : List String :=
  if x ∈ l then l else l ++ [x]

/- ## The IR data model (bril_rs as used by the sources) -/

/-- `bril_rs::Literal` (the two variants the sources handle). -/
inductive Literal
  | int (i : Int)
  | bool (b : Bool)
deriving DecidableEq, Repr

/-- `bril_rs::Type` (the two variants the sources handle). -/
inductive Typ
  | int
  | bool
deriving DecidableEq, Repr

/-- `bril_rs::ValueOps`. -/
inductive ValueOps
  | add | sub | mul | div
  | eq | lt | gt | le | ge
  | vnot | vand | vor
  | id | phi | call
deriving DecidableEq, Repr

/-- `bril_rs::EffectOps` (the variants the sources mention). -/
inductive EffectOps
  | jump | branch | ret | print | nop
deriving DecidableEq, Repr

/-- `bril_rs::Instruction` (the `pos` field, always an optional source
position never inspected by the sources, is omitted). -/
inductive Instruction
  | const (dest : String) (const_type : Typ) (value : Literal)
  | value (op : ValueOps) (dest : String) (op_type : Typ)
      (args : List String) (funcs : List String) (labels : List String)
  | effect (op : EffectOps) (args : List String) (funcs : List String) (labels : List String)
deriving DecidableEq, Repr

/-- `bril_rs::Code`. -/
inductive Code
  | instr (i : Instruction)
  | label (l : String)
deriving DecidableEq, Repr

/-- `bril_rs::Argument`. -/
structure FuncArg where
  name : String
  typ : Typ
deriving DecidableEq, Repr

/-- `bril_rs::Function`. -/
structure Function where
  name : String
  args : List FuncArg
  return_type : Option Typ
  instrs : List Code
deriving DecidableEq, Repr

/- ## src/parse.rs -/

abbrev BasicBlock := List Code

abbrev ControlFlowGraph := List (String × List String)

/-- `parse.rs` `TERMINATORS`. -/
def TERMINATORS : List EffectOps := [EffectOps.jump, EffectOps.branch, EffectOps.ret]

/-- Whether a code item is a terminator effect, as tested inside the
`basic_blocks` loop. -/
def is_terminator : Code → Bool
  | Code.instr (Instruction.effect op _ _ _) => TERMINATORS.contains op
  | _ => false

/-- Whether a code item is a label. -/
def is_label : Code → Bool
  | Code.label _ => true
  | _ => false

/-- The loop body of `parse.rs::basic_blocks`: `block` is the current
accumulator, flushed on a label (before pushing it) and after a
terminator; a final non-empty accumulator is flushed at end of stream. -/
def basicBlocksAux : List Code → BasicBlock → List BasicBlock
  | [], block => if block = [] then [] else [block]
  | line :: rest, block =>
    match line with
    | Code.label _ =>
        if block = [] then basicBlocksAux rest [line]
        else block :: basicBlocksAux rest [line]
    | Code.instr _ =>
        if is_terminator line then (block ++ [line]) :: basicBlocksAux rest []
        else basicBlocksAux rest (block ++ [line])

/-- `parse.rs::basic_blocks`. -/
def basic_blocks (func : Function) : List BasicBlock :=
  basicBlocksAux func.instrs []

/-- `parse.rs::get_block_name`: the leading label if present, otherwise
the function name concatenated with the block index. -/
def get_block_name (block : BasicBlock) (block_idx : Nat) (func_name : String) : String :=
  match block with
  | Code.label l :: _ => l
  | _ => func_name ++ toString block_idx

/-- `parse.rs::expanded_basic_blocks`: synthetic `entry` block prepended and
`exit` block appended. -/
def expanded_basic_blocks (func : Function) : List BasicBlock :=
  ([Code.label "entry"] :: basic_blocks func) ++ [[Code.label "exit"]]

/-- `parse.rs::block_name_to_idx`. -/
def block_name_to_idx (func : Function) : List (String × Nat) :=
  (expanded_basic_blocks func).enum.foldl
    (fun m p => insertA m (get_block_name p.2 p.1 func.name) p.1) []

/-- Successors of expanded block `i` as computed inside
`parse.rs::control_flow_graph` for the non-final blocks: the labels of a
trailing `Jump`/`Branch`, otherwise the next block's name. -/
def block_successors (blocks : List BasicBlock) (fname : String) (i : Nat) : List String :=
  match (blocks.getD i []).getLast? with
  | some (Code.instr (Instruction.effect op _ _ labels)) =>
      if op = EffectOps.jump ∨ op = EffectOps.branch then labels
      else [get_block_name (blocks.getD (i + 1) []) (i + 1) fname]
  | _ => [get_block_name (blocks.getD (i + 1) []) (i + 1) fname]

/-- `parse.rs::control_flow_graph`. -/
def control_flow_graph (func : Function) : ControlFlowGraph :=
  let blocks := expanded_basic_blocks func
  let cfg := (List.range (blocks.length - 1)).foldl
    (fun cfg i =>
      insertA cfg (get_block_name (blocks.getD i []) i func.name) (block_successors blocks func.name i))
    []
  insertA cfg
    (get_block_name (blocks.getD (blocks.length - 1) []) (blocks.length - 1) func.name) []

/- ## Association-list lemmas -/

theorem lookupA_nil {κ α : Type} [DecidableEq κ] (k : κ) :
    lookupA ([] : List (κ × α)) k = none := rfl

theorem lookupA_cons {κ α : Type} [DecidableEq κ] (p : κ × α) (m : List (κ × α)) (k : κ) :
    lookupA (p :: m) k = if p.1 = k then some p.2 else lookupA m k := by
  by_cases h : p.1 = k <;> simp [lookupA, List.find?_cons, h]

theorem lookupA_append {κ α : Type} [DecidableEq κ] (m₁ m₂ : List (κ × α)) (k : κ) :
    lookupA (m₁ ++ m₂) k =
      if k ∈ m₁.map Prod.fst then lookupA m₁ k else lookupA m₂ k := by
  induction m₁ with
  | nil => simp [lookupA]
  | cons p m₁ ih =>
      rw [List.cons_append, lookupA_cons, lookupA_cons, ih]
      by_cases hp : p.1 = k
      · simp [hp]
      · have hk : ¬ k = p.1 := fun h => hp h.symm
        rw [if_neg hp, List.map_cons]
        by_cases hm : k ∈ List.map Prod.fst m₁
        · rw [if_pos hm, if_pos (List.mem_cons_of_mem _ hm), if_neg hp]
        · rw [if_neg hm, if_neg (fun h => by
            rcases List.mem_cons.mp h with h | h
            · exact hk h
            · exact hm h)]

theorem insertA_of_not_mem {κ α : Type} [DecidableEq κ] (m : List (κ × α)) (k : κ) (v : α)
    (h : k ∉ m.map Prod.fst) : insertA m k v = m ++ [(k, v)] := by
  have hfind : m.find? (fun p => decide (p.1 = k)) = none := by
    rw [List.find?_eq_none]
    intro p hp
    simp only [decide_eq_true_eq]
    intro hk
    exact h (hk ▸ List.mem_map_of_mem Prod.fst hp)
  simp [insertA, hfind]

/-- Folding `insertA` over fresh, pairwise-distinct keys appends the entries
in order. -/
theorem foldl_insertA_eq {α : Type} (g : Nat → String) (v : Nat → α) :
    ∀ (l : List Nat) (m0 : List (String × α)),
      (∀ i ∈ l, g i ∉ m0.map Prod.fst) → (l.map g).Nodup →
      l.foldl (fun m i => insertA m (g i) (v i)) m0 = m0 ++ l.map (fun i => (g i, v i))
  | [], m0, _, _ => by simp
  | a :: l, m0, hfresh, hnodup => by
      rw [List.foldl_cons, insertA_of_not_mem m0 (g a) (v a) (hfresh a (List.mem_cons_self a l))]
      rw [foldl_insertA_eq g v l (m0 ++ [(g a, v a)])]
      · simp
      · intro i hi
        simp only [List.map_append, List.mem_append, List.map_cons, List.map_nil]
        rintro (h | h)
        · exact hfresh i (List.mem_cons_of_mem a hi) h
        · simp only [List.mem_singleton] at h
          rw [List.map_cons, List.nodup_cons] at hnodup
          exact hnodup.1 (h ▸ List.mem_map_of_mem g hi)
      · rw [List.map_cons, List.nodup_cons] at hnodup
        exact hnodup.2

/- ## Claim C8: basic-block partitioning invariants -/

/-- A label appears only as the first item of the block. -/
def labels_only_first (b : List Code) : Prop := ∀ c ∈ b.drop 1, is_label c = false

/-- A terminator appears only as the last item of the block. -/
def terminators_only_last (b : List Code) : Prop := ∀ c ∈ b.dropLast, is_terminator c = false

theorem labels_only_first_append (b : List Code) (c : Code) (hb : labels_only_first b)
    (hc : is_label c = false) : labels_only_first (b ++ [c]) := by
  intro x hx
  cases b with
  | nil => simp at hx
  | cons a b =>
      simp only [List.cons_append, List.drop_succ_cons, List.drop_zero] at hx
      rcases List.mem_append.mp hx with h | h
      · exact hb x (by simpa using h)
      · simp only [List.mem_singleton] at h
        simp [h, hc]

theorem basicBlocksAux_nil (acc : BasicBlock) :
    basicBlocksAux [] acc = if acc = [] then [] else [acc] := rfl

theorem basicBlocksAux_label (l : String) (rest : List Code) (acc : BasicBlock) :
    basicBlocksAux (Code.label l :: rest) acc =
      if acc = [] then basicBlocksAux rest [Code.label l]
      else acc :: basicBlocksAux rest [Code.label l] := rfl

theorem basicBlocksAux_instr (i : Instruction) (rest : List Code) (acc : BasicBlock) :
    basicBlocksAux (Code.instr i :: rest) acc =
      if is_terminator (Code.instr i) then (acc ++ [Code.instr i]) :: basicBlocksAux rest []
      else basicBlocksAux rest (acc ++ [Code.instr i]) := rfl

theorem basicBlocksAux_spec (instrs : List Code) : ∀ (acc : BasicBlock),
    labels_only_first acc → (∀ c ∈ acc, is_terminator c = false) →
    ((basicBlocksAux instrs acc).flatten = acc ++ instrs ∧
     ∀ b ∈ basicBlocksAux instrs acc,
       b ≠ [] ∧ labels_only_first b ∧ terminators_only_last b) := by
  induction instrs with
  | nil =>
      intro acc hlab hterm
      rw [basicBlocksAux_nil]
      by_cases hacc : acc = []
      · subst hacc
        simp
      · rw [if_neg hacc]
        refine ⟨by simp, ?_⟩
        intro b hb
        rw [List.mem_singleton] at hb
        subst hb
        exact ⟨hacc, hlab, fun c hc => hterm c (List.dropLast_subset _ hc)⟩
  | cons line rest ih =>
      intro acc hlab hterm
      cases line with
      | label l =>
          have h := ih [Code.label l]
            (by intro c hc; simp at hc)
            (by intro c hc; rw [List.mem_singleton] at hc; subst hc; rfl)
          rw [basicBlocksAux_label]
          by_cases hacc : acc = []
          · subst hacc
            rw [if_pos rfl]
            exact ⟨by rw [h.1]; simp, h.2⟩
          · rw [if_neg hacc]
            refine ⟨by rw [List.flatten_cons, h.1]; simp, ?_⟩
            intro b hb
            rcases List.mem_cons.mp hb with hb | hb
            · subst hb
              exact ⟨hacc, hlab, fun c hc => hterm c (List.dropLast_subset _ hc)⟩
            · exact h.2 b hb
      | instr i =>
          rw [basicBlocksAux_instr]
          by_cases hter : is_terminator (Code.instr i)
          · have h := ih [] (by intro c hc; simp at hc) (by intro c hc; simp at hc)
            rw [if_pos hter]
            refine ⟨by rw [List.flatten_cons, h.1]; simp, ?_⟩
            intro b hb
            rcases List.mem_cons.mp hb with hb | hb
            · subst hb
              refine ⟨by simp, ?_, ?_⟩
              · exact labels_only_first_append acc (Code.instr i) hlab rfl
              · intro c hc
                rw [List.dropLast_concat] at hc
                exact hterm c hc
            · exact h.2 b hb
          · have h := ih (acc ++ [Code.instr i])
              (labels_only_first_append acc (Code.instr i) hlab rfl)
              (by
                intro c hc
                rcases List.mem_append.mp hc with hc | hc
                · exact hterm c hc
                · rw [List.mem_singleton] at hc
                  subst hc
                  simpa using hter)
            rw [if_neg hter]
            refine ⟨?_, h.2⟩
            rw [h.1]
            simp

/-- Claim C8: the blocks returned by `basic_blocks` concatenate back to the
function's instruction stream, every block is non-empty, a label appears
only as a block's first item, a terminator (`Jump`/`Branch`/`Return`)
appears only as a block's last item, and a function with no instructions
yields zero blocks. -/
theorem basic_blocks_invariants (f : Function) :
    (basic_blocks f).flatten = f.instrs ∧
    (∀ b ∈ basic_blocks f, b ≠ [] ∧ labels_only_first b ∧ terminators_only_last b) ∧
    (f.instrs = [] → basic_blocks f = []) := by
  have h := basicBlocksAux_spec f.instrs [] (by intro c hc; simp at hc) (by intro c hc; simp at hc)
  refine ⟨by simpa [basic_blocks] using h.1, h.2, ?_⟩
  intro hnil
  simp [basic_blocks, hnil, basicBlocksAux]

/-- An example function with branches, labels and terminators, used to
instantiate theorems with hypotheses. -/
def diamondF : Function :=
  { name := "main", args := [], return_type := none,
    instrs :=
      [ Code.instr (Instruction.effect EffectOps.branch ["c"] [] ["L", "R"]),
        Code.label "L",
        Code.instr (Instruction.effect EffectOps.jump [] [] ["M"]),
        Code.label "R",
        Code.instr (Instruction.effect EffectOps.jump [] [] ["M"]),
        Code.label "M",
        Code.instr (Instruction.effect EffectOps.ret [] [] []) ] }

theorem basic_blocks_invariants_witness :
    (basic_blocks diamondF).flatten = diamondF.instrs ∧
    (∀ b ∈ basic_blocks diamondF, b ≠ [] ∧ labels_only_first b ∧ terminators_only_last b) ∧
    (diamondF.instrs = [] → basic_blocks diamondF = []) :=
  basic_blocks_invariants diamondF

/- ## Claim C1: CFG successors of Return-terminated blocks -/

/-- The name of expanded block `i`, as `control_flow_graph` computes it. -/
def nameAt (f : Function) (i : Nat) : String :=
  get_block_name ((expanded_basic_blocks f).getD i []) i f.name

/-- The names of all expanded blocks in order. -/
def cfgNames (f : Function) : List String :=
  (List.range (expanded_basic_blocks f).length).map (nameAt f)

theorem lookupA_map_of_nodup {α : Type} (g : Nat → String) (v : Nat → α) :
    ∀ (l : List Nat) (i : Nat), i ∈ l → (l.map g).Nodup →
    lookupA (l.map (fun j => (g j, v j))) (g i) = some (v i)
  | [], i, hi, _ => by simp at hi
  | a :: l, i, hi, hnd => by
      rw [List.map_cons, lookupA_cons]
      rcases List.mem_cons.mp hi with hi | hi
      · subst hi
        rw [if_pos rfl]
      · rw [List.map_cons, List.nodup_cons] at hnd
        have hne : ¬ g a = g i := fun h => hnd.1 (h ▸ List.mem_map_of_mem g hi)
        rw [if_neg hne]
        exact lookupA_map_of_nodup g v l i hi hnd.2

theorem expanded_length_pos (f : Function) : 1 ≤ (expanded_basic_blocks f).length := by
  simp [expanded_basic_blocks]

theorem range_eq_append (n : Nat) (h : 1 ≤ n) :
    List.range n = List.range (n - 1) ++ [n - 1] := by
  obtain ⟨m, rfl⟩ : ∃ m, n = m + 1 := ⟨n - 1, by omega⟩
  simp [List.range_succ]

/-- When the block names are pairwise distinct, `control_flow_graph` is
exactly the list of per-block entries in block order: successor entries for
the first `n - 1` blocks, then an empty entry for the final (`exit`) block. -/
theorem control_flow_graph_eq (f : Function) (h : (cfgNames f).Nodup) :
    control_flow_graph f =
      (List.range ((expanded_basic_blocks f).length - 1)).map
        (fun i => (nameAt f i, block_successors (expanded_basic_blocks f) f.name i))
      ++ [(nameAt f ((expanded_basic_blocks f).length - 1), [])] := by
  have hn := expanded_length_pos f
  rw [cfgNames, range_eq_append _ hn, List.map_append] at h
  rw [List.nodup_append] at h
  have hfold := foldl_insertA_eq (nameAt f)
    (fun i => block_successors (expanded_basic_blocks f) f.name i)
    (List.range ((expanded_basic_blocks f).length - 1)) []
    (by intro i _ hmem; simp at hmem) h.1
  show insertA
      ((List.range ((expanded_basic_blocks f).length - 1)).foldl
        (fun cfg i => insertA cfg (nameAt f i)
          (block_successors (expanded_basic_blocks f) f.name i)) [])
      (nameAt f ((expanded_basic_blocks f).length - 1)) [] = _
  rw [hfold, List.nil_append]
  rw [insertA_of_not_mem]
  intro hmem
  rw [List.map_map] at hmem
  have : (nameAt f ((expanded_basic_blocks f).length - 1)) ∈
      (List.range ((expanded_basic_blocks f).length - 1)).map (nameAt f) := by
    simpa using hmem
  exact h.2.2 this (by simp)

/-- Claim C1, amended: a non-final expanded block whose last instruction is
an `Effect` with op `Return` has as its successor list the singleton name
of the next expanded block (the synthetic `exit` when the `Return` block is
the last real block), not the empty list.  Requires pairwise-distinct block
names so that the association-list lookup is unambiguous. -/
theorem cfg_ret_successors (f : Function) (i : Nat)
    (hnodup : (cfgNames f).Nodup)
    (hi : i + 1 < (expanded_basic_blocks f).length)
    (args funcs labels : List String)
    (hlast : ((expanded_basic_blocks f).getD i []).getLast? =
       some (Code.instr (Instruction.effect EffectOps.ret args funcs labels))) :
    lookupA (control_flow_graph f) (nameAt f i) = some [nameAt f (i + 1)] := by
  rw [control_flow_graph_eq f hnodup, lookupA_append]
  have hkeys : ((List.range ((expanded_basic_blocks f).length - 1)).map
      (fun i => (nameAt f i, block_successors (expanded_basic_blocks f) f.name i))).map
        Prod.fst
      = (List.range ((expanded_basic_blocks f).length - 1)).map (nameAt f) := by
    rw [List.map_map]
    rfl
  have hmem : nameAt f i ∈ ((List.range ((expanded_basic_blocks f).length - 1)).map
      (fun i => (nameAt f i, block_successors (expanded_basic_blocks f) f.name i))).map
        Prod.fst := by
    rw [hkeys]
    exact List.mem_map_of_mem (nameAt f) (List.mem_range.mpr (by omega))
  rw [if_pos hmem]
  have hnd : ((List.range ((expanded_basic_blocks f).length - 1)).map (nameAt f)).Nodup := by
    rw [cfgNames, range_eq_append _ (expanded_length_pos f), List.map_append,
      List.nodup_append] at hnodup
    exact hnodup.1
  rw [lookupA_map_of_nodup (nameAt f) _ _ i (List.mem_range.mpr (by omega)) hnd]
  have : block_successors (expanded_basic_blocks f) f.name i = [nameAt f (i + 1)] := by
    simp only [block_successors, hlast]
    rw [if_neg (by rintro (h | h) <;> exact EffectOps.noConfusion h)]
    rfl
  rw [this]

/-- A function consisting of a single `ret` instruction. -/
def retF : Function :=
  { name := "main", args := [], return_type := none,
    instrs := [Code.instr (Instruction.effect EffectOps.ret [] [] [])] }

/-- Claim C1 as stated is false on the code: in `retF` the single real block
(named `main1`) ends in `Effect{op=Return}` yet its successor list is
`["exit"]`, not the empty list. -/
theorem cfg_ret_counterexample :
    ((expanded_basic_blocks retF).getD 1 []).getLast? =
        some (Code.instr (Instruction.effect EffectOps.ret [] [] [])) ∧
    get_block_name ((expanded_basic_blocks retF).getD 1 []) 1 retF.name = "main1" ∧
    lookupA (control_flow_graph retF) "main1" = some ["exit"] ∧
    some ["exit"] ≠ some ([] : List String) := by
  refine ⟨by decide, by decide, by decide, by decide⟩

theorem cfg_ret_successors_witness :
    lookupA (control_flow_graph retF) (nameAt retF 1) = some [nameAt retF 2] :=
  cfg_ret_successors retF 1 (by decide) (by decide) [] [] [] (by decide)

/- ## src/dataflow.rs and src/analyze.rs: reaching definitions -/

/-- `dataflow.rs`/`analyze.rs` `Definition`. -/
structure Definition where
  name : String
  block : String
  line : Nat
deriving DecidableEq, Repr

/-- A sort key for `Definition` (strings compared by their character
lists, which the kernel can evaluate). -/
def Definition.key (d : Definition) : Lex (List Char × Lex (List Char × Nat)) :=
  toLex (d.name.data, toLex (d.block.data, d.line))

theorem Definition.key_injective : Function.Injective Definition.key := by
  rintro ⟨a, b, c⟩ ⟨a', b', c'⟩ h
  have h1 := toLex.injective h
  rw [Prod.mk.injEq] at h1
  have h3 := toLex.injective h1.2
  rw [Prod.mk.injEq] at h3
  simp only [Definition.mk.injEq]
  exact ⟨String.ext h1.1, String.ext h3.1, h3.2⟩

/-- The canonical order in which the embedding fixes `HashSet<Definition>`
iteration: the Rust code's `input.iter().find(...)` is modelled as the
lexicographically least matching element. -/
instance : LinearOrder Definition where
  le d e := d.key ≤ e.key
  lt d e := d.key < e.key
  le_refl d := le_refl d.key
  le_trans a b c h h' := le_trans (a := a.key) (b := b.key) (c := c.key) h h'
  le_antisymm a b h h' := Definition.key_injective (le_antisymm (a := a.key) (b := b.key) h h')
  le_total a b := le_total a.key b.key
  lt_iff_le_not_le a b := lt_iff_le_not_le (a := a.key) (b := b.key)
  decidableLE a b := inferInstanceAs (Decidable (a.key ≤ b.key))

/-- `input.iter().find(|d| &d.name == dest)` from the `transfer` closure of
`reaching_definitions`, with hash-iteration order fixed to the canonical
order: the least element of `input` whose name is `dest`. -/
def findDef (input : Finset Definition) (dest : String) : Option Definition :=
  (input.filter (fun d => d.name = dest)).min

theorem findDef_mem {input : Finset Definition} {dest : String} {d : Definition}
    (h : findDef input dest = some d) : d ∈ input ∧ d.name = dest := by
  have := Finset.mem_of_min h
  rw [Finset.mem_filter] at this
  exact this

theorem findDef_min {input : Finset Definition} {dest : String} {d e : Definition}
    (h : findDef input dest = some d) (he : e ∈ input) (hn : e.name = dest) : d ≤ e :=
  Finset.min_le_of_eq (Finset.mem_filter.mpr ⟨he, hn⟩) h

theorem findDef_isSome {input : Finset Definition} {dest : String} {e : Definition}
    (he : e ∈ input) (hn : e.name = dest) : ∃ d, findDef input dest = some d :=
  Finset.min_of_mem (Finset.mem_filter.mpr ⟨he, hn⟩)

/-- The `(line, dest)` pairs of the defining (`Constant`/`Value`)
instructions of a block, in order — the lines the `transfer` loop acts on. -/
def block_defs (b : BasicBlock) : List (Nat × String) :=
  b.enum.filterMap (fun p =>
    match p.2 with
    | Code.instr (Instruction.const dest _ _) => some (p.1, dest)
    | Code.instr (Instruction.value _ dest _ _ _ _) => some (p.1, dest)
    | _ => none)

/-- The `transfer` closure of `reaching_definitions` (`dataflow.rs:47-68`,
identically `analyze.rs:30-51`): walk the block's defining instructions,
inserting a `Definition` for every defining line into `defined` and, for
each one, removing from `in_minus_killed` the element of `input` found by
name (at most one per name); the result is `defined ∪ in_minus_killed`. -/
def transfer (b : String) (block : BasicBlock) (input : Finset Definition) : Finset Definition :=
  let st := (block_defs block).foldl
    (fun (st : Finset Definition × Finset Definition) ld =>
      (insert ⟨ld.2, b, ld.1⟩ st.1,
       match findDef input ld.2 with
       | some d => st.2.erase d
       | none => st.2))
    (∅, input)
  st.1 ∪ st.2

/-- All definitions the transfer loop inserts: one per defining line. -/
def genSet (b : String) (block : BasicBlock) : Finset Definition :=
  ((block_defs block).map (fun ld => (⟨ld.2, b, ld.1⟩ : Definition))).toFinset

/-- The definitions of `input` removed by the transfer loop: the first
match (in canonical order) per defined name. -/
def killSet (block : BasicBlock) (input : Finset Definition) : Finset Definition :=
  ((block_defs block).filterMap (fun ld => findDef input ld.2)).toFinset

theorem transfer_foldl (b : String) (input : Finset Definition) :
    ∀ (defs : List (Nat × String)) (D I : Finset Definition),
      defs.foldl
        (fun (st : Finset Definition × Finset Definition) ld =>
          (insert ⟨ld.2, b, ld.1⟩ st.1,
           match findDef input ld.2 with
           | some d => st.2.erase d
           | none => st.2))
        (D, I)
      = (D ∪ (defs.map (fun ld => (⟨ld.2, b, ld.1⟩ : Definition))).toFinset,
         I \ (defs.filterMap (fun ld => findDef input ld.2)).toFinset)
  | [], D, I => by simp
  | ld :: defs, D, I => by
      rw [List.foldl_cons]
      cases hfd : findDef input ld.2 with
      | none =>
          rw [transfer_foldl b input defs (insert ⟨ld.2, b, ld.1⟩ D) I]
          simp only [List.map_cons, List.toFinset_cons, List.filterMap_cons, hfd]
          rw [Finset.insert_union, Finset.union_insert]
      | some d =>
          rw [transfer_foldl b input defs (insert ⟨ld.2, b, ld.1⟩ D) (I.erase d)]
          simp only [List.map_cons, List.toFinset_cons, List.filterMap_cons, hfd]
          rw [Finset.insert_union, Finset.union_insert, Finset.erase_eq, sdiff_sdiff_left,
            Finset.sup_eq_union, ← Finset.insert_eq]

theorem transfer_eq (b : String) (block : BasicBlock) (input : Finset Definition) :
    transfer b block input = genSet b block ∪ (input \ killSet block input) := by
  rw [transfer, transfer_foldl b input (block_defs block) ∅ input]
  rw [genSet, killSet, Finset.empty_union]

theorem transfer_subset (b : String) (block : BasicBlock) (input : Finset Definition) :
    transfer b block input ⊆ genSet b block ∪ input := by
  rw [transfer_eq]
  exact Finset.union_subset_union (le_refl _) (Finset.sdiff_subset)

theorem gen_subset_transfer (b : String) (block : BasicBlock) (input : Finset Definition) :
    genSet b block ⊆ transfer b block input := by
  rw [transfer_eq]
  exact Finset.subset_union_left

/-- The transfer function is monotone in its input (with the canonical
`find` order; key to termination of the worklist iteration). -/
theorem transfer_mono (b : String) (block : BasicBlock)
    {S S' : Finset Definition} (h : S ⊆ S') :
    transfer b block S ⊆ transfer b block S' := by
  rw [transfer_eq, transfer_eq]
  intro d hd
  rw [Finset.mem_union] at hd ⊢
  rcases hd with hd | hd
  · exact Or.inl hd
  · right
    rw [Finset.mem_sdiff] at hd ⊢
    refine ⟨h hd.1, ?_⟩
    intro hk
    rw [killSet, List.mem_toFinset, List.mem_filterMap] at hk
    obtain ⟨ld, hld, hfd'⟩ := hk
    have hdp := findDef_mem hfd'
    obtain ⟨e, hfe⟩ := findDef_isSome hd.1 hdp.2
    have hed : e ≤ d := findDef_min hfe hd.1 hdp.2
    have hde : d ≤ e := findDef_min hfd' (h (findDef_mem hfe).1) (findDef_mem hfe).2
    have : d = e := le_antisymm hde hed
    subst this
    exact hd.2 (by
      rw [killSet, List.mem_toFinset, List.mem_filterMap]
      exact ⟨ld, hld, hfe⟩)

/- ## Claim C2: the reaching-definitions transfer function -/

/-- A block defining `x` twice. -/
def c2Block : BasicBlock :=
  [Code.instr (Instruction.const "x" Typ.int (Literal.int 1)),
   Code.instr (Instruction.const "x" Typ.int (Literal.int 2))]

/-- A block defining `x` once (a join block redefining `x`). -/
def c2BlockJ : BasicBlock :=
  [Code.instr (Instruction.const "x" Typ.int (Literal.int 3))]

/-- Claim C2 fails on the code in both respects: (i) with empty IN, the
block `x:=1; x:=2` transfers to both definitions of `x` (lines 0 and 1),
not only the last; (ii) with IN containing two definitions of `x` (from
blocks L and R) and a block redefining `x`, one of the IN definitions
survives in OUT, though the claim's KILL would remove both. -/
theorem reaching_transfer_failing :
    transfer "b" c2Block ∅ =
      {⟨"x", "b", 0⟩, ⟨"x", "b", 1⟩} ∧
    (⟨"x", "b", 0⟩ : Definition) ∈ transfer "b" c2Block ∅ ∧
    transfer "J" c2BlockJ {⟨"x", "L", 0⟩, ⟨"x", "R", 0⟩} =
      {⟨"x", "J", 0⟩, ⟨"x", "R", 0⟩} ∧
    (⟨"x", "R", 0⟩ : Definition) ∈ transfer "J" c2BlockJ {⟨"x", "L", 0⟩, ⟨"x", "R", 0⟩} := by
  refine ⟨by decide, by decide, by decide, by decide⟩

/- ## src/dataflow.rs: the reaching-definitions worklist -/

/-- Result of a Rust computation that can panic. -/
inductive PRes (α : Type) where
  | panic
  | ok (val : α)
deriving DecidableEq, Repr

/-- `util.rs::invert_digraph` (also the private copy in `dataflow.rs`):
reverse every edge, iterating the keys in map order. -/
def invert_digraph (g : ControlFlowGraph) : ControlFlowGraph :=
  g.map (fun p => (p.1, (g.filter (fun q => p.1 ∈ q.2)).map Prod.fst))

/-- `block_names` in `reaching_definitions`: the keys of
`block_name_to_idx` (in the embedding's insertion order). -/
def rdNames (f : Function) : List String := (block_name_to_idx f).map Prod.fst

/-- Every `Definition` any transfer application can ever mention: one per
defining line of each named block. -/
def rdUniverse (f : Function) : Finset Definition :=
  ((block_name_to_idx f).map (fun p =>
    (block_defs ((expanded_basic_blocks f).getD p.2 [])).map
      (fun ld => (⟨ld.2, p.1, ld.1⟩ : Definition)))).flatten.toFinset

/-- The `merge` step: union of the predecessors' OUT sets. -/
def mergeOuts (ps : List String) (outputs : String → Finset Definition) : Finset Definition :=
  ps.foldl (fun acc p => acc ∪ outputs p) ∅

/-- The worklist loop of `dataflow.rs::reaching_definitions` (lines 79-97),
with explicit fuel.  One iteration: pop the last element `b`; recompute
`IN[b]` as the union of its predecessors' OUT sets; run the transfer; if
OUT changed, append `b`'s successors and update `OUT[b]`.  A popped name
that is not a key of the maps is a Rust `HashMap` index panic
(`predecessors[&b]`). -/
def rdLoop (f : Function) : Nat → (String → Finset Definition) →
    (String → Finset Definition) → List String →
    Option (PRes ((String → Finset Definition) × (String → Finset Definition)))
  | 0, _, _, _ => none
  | fuel + 1, inputs, outputs, wl =>
    if hwl : wl = [] then some (PRes.ok (inputs, outputs))
    else
      match lookupA (invert_digraph (control_flow_graph f)) (wl.getLast hwl),
            lookupA (block_name_to_idx f) (wl.getLast hwl),
            lookupA (control_flow_graph f) (wl.getLast hwl) with
      | some ps, some idx, some sucs =>
          if transfer (wl.getLast hwl) ((expanded_basic_blocks f).getD idx [])
              (mergeOuts ps outputs) = outputs (wl.getLast hwl) then
            rdLoop f fuel
              (Function.update inputs (wl.getLast hwl) (mergeOuts ps outputs))
              outputs wl.dropLast
          else
            rdLoop f fuel
              (Function.update inputs (wl.getLast hwl) (mergeOuts ps outputs))
              (Function.update outputs (wl.getLast hwl)
                (transfer (wl.getLast hwl) ((expanded_basic_blocks f).getD idx [])
                  (mergeOuts ps outputs)))
              (wl.dropLast ++ sucs)
      | _, _, _ => some PRes.panic

/-- `dataflow.rs::reaching_definitions`, with explicit fuel for the
worklist loop: initialize all OUT sets (and `IN[entry]`) to the empty set,
seed the worklist with all block names, iterate, and read off a mapping
from each block name to its (IN, OUT) pair. -/
def reaching_definitions (f : Function) (fuel : Nat) :
    Option (PRes (List (String × (Finset Definition × Finset Definition)))) :=
  match rdLoop f fuel (fun _ => ∅) (fun _ => ∅) (rdNames f) with
  | none => none
  | some PRes.panic => some PRes.panic
  | some (PRes.ok (inputs, outputs)) =>
      some (PRes.ok ((rdNames f).map (fun n => (n, (inputs n, outputs n)))))

/- ## Key-set lemmas for the maps involved -/

theorem lookupA_mem {κ α : Type} [DecidableEq κ] {m : List (κ × α)} {k : κ} {v : α}
    (h : lookupA m k = some v) : (k, v) ∈ m := by
  rw [lookupA, Option.map_eq_some'] at h
  obtain ⟨p, hp, hv⟩ := h
  have hk := List.find?_some hp
  rw [decide_eq_true_eq] at hk
  have := List.mem_of_find?_eq_some hp
  rwa [show p = (k, v) from Prod.ext hk hv] at this

theorem lookupA_isSome_of_mem_keys {κ α : Type} [DecidableEq κ] {m : List (κ × α)} {k : κ}
    (h : k ∈ m.map Prod.fst) : ∃ v, lookupA m k = some v := by
  obtain ⟨p, hp, hk⟩ := List.mem_map.mp h
  rw [lookupA]
  have : (m.find? (fun p => decide (p.1 = k))).isSome := by
    rw [List.find?_isSome]
    exact ⟨p, hp, by simp [hk]⟩
  obtain ⟨q, hq⟩ := Option.isSome_iff_exists.mp this
  exact ⟨q.2, by rw [hq]; rfl⟩

theorem mem_keys_insertA {κ α : Type} [DecidableEq κ] (m : List (κ × α)) (k : κ) (v : α)
    (x : κ) : x ∈ (insertA m k v).map Prod.fst ↔ x ∈ m.map Prod.fst ∨ x = k := by
  rw [insertA]
  by_cases hf : (m.find? (fun p => decide (p.1 = k))).isSome
  · rw [if_pos hf]
    have hkeys : (m.map (fun p => if p.1 = k then (k, v) else p)).map Prod.fst
        = m.map Prod.fst := by
      rw [List.map_map]
      refine List.map_congr_left ?_
      intro p _
      by_cases hp : p.1 = k
      · simp [hp]
      · simp [hp]
    rw [hkeys]
    constructor
    · exact Or.inl
    · rintro (h | rfl)
      · exact h
      · obtain ⟨q, hq⟩ := Option.isSome_iff_exists.mp hf
        have := List.find?_some hq
        rw [decide_eq_true_eq] at this
        exact this ▸ List.mem_map_of_mem Prod.fst (List.mem_of_find?_eq_some hq)
  · rw [if_neg hf, List.map_append]
    simp

theorem nodup_keys_insertA {κ α : Type} [DecidableEq κ] (m : List (κ × α)) (k : κ) (v : α)
    (h : (m.map Prod.fst).Nodup) : ((insertA m k v).map Prod.fst).Nodup := by
  rw [insertA]
  by_cases hf : (m.find? (fun p => decide (p.1 = k))).isSome
  · rw [if_pos hf]
    have hkeys : (m.map (fun p => if p.1 = k then (k, v) else p)).map Prod.fst
        = m.map Prod.fst := by
      rw [List.map_map]
      refine List.map_congr_left ?_
      intro p _
      by_cases hp : p.1 = k
      · simp [hp]
      · simp [hp]
    rw [hkeys]
    exact h
  · rw [if_neg hf, List.map_append]
    rw [List.nodup_append]
    refine ⟨h, List.nodup_singleton _, ?_⟩
    intro x hx
    rw [List.map_singleton, List.mem_singleton]
    rintro rfl
    rw [List.find?_isSome] at hf
    push_neg at hf
    obtain ⟨p, hp, hk⟩ := List.mem_map.mp hx
    exact absurd hk (by simpa using hf p hp)

theorem mem_keys_foldl_insertA {κ α β : Type} [DecidableEq κ]
    (key : β → κ) (val : β → α) :
    ∀ (l : List β) (m0 : List (κ × α)) (x : κ),
      (x ∈ ((l.foldl (fun m p => insertA m (key p) (val p)) m0).map Prod.fst) ↔
        x ∈ m0.map Prod.fst ∨ x ∈ l.map key)
  | [], m0, x => by simp
  | p :: l, m0, x => by
      rw [List.foldl_cons, mem_keys_foldl_insertA key val l (insertA m0 (key p) (val p)) x,
        mem_keys_insertA, List.map_cons, List.mem_cons]
      tauto

theorem nodup_keys_foldl_insertA {κ α β : Type} [DecidableEq κ]
    (key : β → κ) (val : β → α) :
    ∀ (l : List β) (m0 : List (κ × α)), (m0.map Prod.fst).Nodup →
      ((l.foldl (fun m p => insertA m (key p) (val p)) m0).map Prod.fst).Nodup
  | [], _, h => h
  | p :: l, m0, h => by
      rw [List.foldl_cons]
      exact nodup_keys_foldl_insertA key val l _ (nodup_keys_insertA m0 (key p) (val p) h)

theorem enum_map_name (f : Function) :
    (expanded_basic_blocks f).enum.map (fun p => get_block_name p.2 p.1 f.name)
      = (List.range (expanded_basic_blocks f).length).map (nameAt f) := by
  apply List.ext_getElem
  · simp
  · intro i h1 h2
    rw [List.getElem_map, List.getElem_map, List.getElem_enum, List.getElem_range]
    rw [nameAt, List.getD_eq_getElem (expanded_basic_blocks f) [] (by simpa using h1)]

theorem mem_rdNames (f : Function) (x : String) :
    x ∈ rdNames f ↔ x ∈ (List.range (expanded_basic_blocks f).length).map (nameAt f) := by
  rw [rdNames, block_name_to_idx,
    mem_keys_foldl_insertA (fun p => get_block_name p.2 p.1 f.name) (fun p => p.1)
      (expanded_basic_blocks f).enum [] x]
  rw [enum_map_name]
  simp

theorem nodup_rdNames (f : Function) : (rdNames f).Nodup := by
  rw [rdNames, block_name_to_idx]
  exact nodup_keys_foldl_insertA _ _ (expanded_basic_blocks f).enum [] (by simp)

theorem mem_cfg_keys (f : Function) (x : String) :
    x ∈ (control_flow_graph f).map Prod.fst ↔
      x ∈ (List.range (expanded_basic_blocks f).length).map (nameAt f) := by
  rw [control_flow_graph]
  rw [mem_keys_insertA]
  rw [mem_keys_foldl_insertA (fun i => get_block_name ((expanded_basic_blocks f).getD i []) i f.name)
    (fun i => block_successors (expanded_basic_blocks f) f.name i)
    (List.range ((expanded_basic_blocks f).length - 1)) [] x]
  rw [range_eq_append _ (expanded_length_pos f), List.map_append]
  simp only [List.map_nil, List.not_mem_nil, false_or, List.mem_append,
    List.map_singleton, List.mem_singleton]
  rfl

theorem mem_cfg_keys_iff_rdNames (f : Function) (x : String) :
    x ∈ (control_flow_graph f).map Prod.fst ↔ x ∈ rdNames f := by
  rw [mem_cfg_keys, mem_rdNames]

theorem invert_digraph_keys (g : ControlFlowGraph) :
    (invert_digraph g).map Prod.fst = g.map Prod.fst := by
  rw [invert_digraph, List.map_map]
  rfl

theorem invert_digraph_values_subset (g : ControlFlowGraph) :
    ∀ q ∈ invert_digraph g, ∀ x ∈ q.2, x ∈ g.map Prod.fst := by
  intro q hq x hx
  rw [invert_digraph] at hq
  obtain ⟨p, _, hpq⟩ := List.mem_map.mp hq
  subst hpq
  obtain ⟨r, hr, hrx⟩ := List.mem_map.mp hx
  exact hrx ▸ List.mem_map_of_mem Prod.fst (List.mem_of_mem_filter hr)

/- ## Termination of the reaching-definitions worklist -/

theorem mem_foldl_union (o : String → Finset Definition) :
    ∀ (ps : List String) (acc : Finset Definition) (x : Definition),
      (x ∈ ps.foldl (fun a p => a ∪ o p) acc ↔ x ∈ acc ∨ ∃ p ∈ ps, x ∈ o p)
  | [], acc, x => by simp
  | p :: ps, acc, x => by
      rw [List.foldl_cons, mem_foldl_union o ps (acc ∪ o p) x, Finset.mem_union]
      constructor
      · rintro ((h | h) | ⟨q, hq, hx⟩)
        · exact Or.inl h
        · exact Or.inr ⟨p, List.mem_cons_self p ps, h⟩
        · exact Or.inr ⟨q, List.mem_cons_of_mem p hq, hx⟩
      · rintro (h | ⟨q, hq, hx⟩)
        · exact Or.inl (Or.inl h)
        · rcases List.mem_cons.mp hq with rfl | hq
          · exact Or.inl (Or.inr hx)
          · exact Or.inr ⟨q, hq, hx⟩

theorem mem_mergeOuts (ps : List String) (o : String → Finset Definition) (x : Definition) :
    x ∈ mergeOuts ps o ↔ ∃ p ∈ ps, x ∈ o p := by
  rw [mergeOuts, mem_foldl_union]
  simp

theorem mergeOuts_mono {ps : List String} {o o' : String → Finset Definition}
    (h : ∀ p ∈ ps, o p ⊆ o' p) : mergeOuts ps o ⊆ mergeOuts ps o' := by
  intro x hx
  rw [mem_mergeOuts] at hx ⊢
  obtain ⟨p, hp, hx⟩ := hx
  exact ⟨p, hp, h p hp hx⟩

theorem mergeOuts_subset {ps : List String} {o : String → Finset Definition}
    {U : Finset Definition} (h : ∀ p ∈ ps, o p ⊆ U) : mergeOuts ps o ⊆ U := by
  intro x hx
  rw [mem_mergeOuts] at hx
  obtain ⟨p, hp, hx⟩ := hx
  exact h p hp hx

theorem genSet_subset_universe (f : Function) {b : String} {idx : Nat}
    (h : lookupA (block_name_to_idx f) b = some idx) :
    genSet b ((expanded_basic_blocks f).getD idx []) ⊆ rdUniverse f := by
  intro d hd
  rw [genSet, List.mem_toFinset] at hd
  rw [rdUniverse, List.mem_toFinset, List.mem_flatten]
  exact ⟨_, List.mem_map_of_mem _ (lookupA_mem h), hd⟩

/-- The transfer application the invariant compares a block's OUT set
against: IN recomputed from the current outputs. -/
def transferAt (f : Function) (b : String) (S : Finset Definition) : Finset Definition :=
  transfer b ((expanded_basic_blocks f).getD ((lookupA (block_name_to_idx f) b).getD 0) []) S

/-- The predecessor list of a block per the inverted CFG. -/
def predsOf (f : Function) (b : String) : List String :=
  (lookupA (invert_digraph (control_flow_graph f)) b).getD []

/-- Loop invariant: every OUT set lies below its own transfer (so OUT sets
only grow) and inside the finite universe. -/
def RDInv (f : Function) (outputs : String → Finset Definition) : Prop :=
  ∀ b ∈ rdNames f,
    outputs b ⊆ transferAt f b (mergeOuts (predsOf f b) outputs) ∧
    outputs b ⊆ rdUniverse f

theorem RDInv_initial (f : Function) : RDInv f (fun _ => ∅) :=
  fun _ _ => ⟨Finset.empty_subset _, Finset.empty_subset _⟩

theorem preds_mem_rdNames (f : Function) {b : String} {ps : List String}
    (hps : lookupA (invert_digraph (control_flow_graph f)) b = some ps) :
    ∀ p ∈ ps, p ∈ rdNames f := by
  intro p hp
  rw [← mem_cfg_keys_iff_rdNames]
  exact invert_digraph_values_subset (control_flow_graph f) _ (lookupA_mem hps) p hp

theorem RDInv_update (f : Function) {outputs : String → Finset Definition}
    (hinv : RDInv f outputs) {b : String} {ps : List String} {idx : Nat}
    (hb : b ∈ rdNames f)
    (hps : lookupA (invert_digraph (control_flow_graph f)) b = some ps)
    (hidx : lookupA (block_name_to_idx f) b = some idx) :
    RDInv f (Function.update outputs b
      (transfer b ((expanded_basic_blocks f).getD idx []) (mergeOuts ps outputs))) := by
  have htr : transferAt f b (mergeOuts (predsOf f b) outputs)
      = transfer b ((expanded_basic_blocks f).getD idx []) (mergeOuts ps outputs) := by
    rw [transferAt, predsOf, hps, hidx]
    rfl
  have hgrow : ∀ c, outputs c ⊆ Function.update outputs b
      (transfer b ((expanded_basic_blocks f).getD idx []) (mergeOuts ps outputs)) c := by
    intro c
    by_cases hc : c = b
    · subst hc
      rw [Function.update_same]
      exact htr ▸ (hinv c hb).1
    · rw [Function.update_noteq hc]
  have hUnew : transfer b ((expanded_basic_blocks f).getD idx []) (mergeOuts ps outputs)
      ⊆ rdUniverse f := by
    refine subset_trans (transfer_subset _ _ _) (Finset.union_subset ?_ ?_)
    · exact genSet_subset_universe f hidx
    · exact mergeOuts_subset (fun p hp => (hinv p (preds_mem_rdNames f hps p hp)).2)
  intro c hc
  constructor
  · by_cases hcb : c = b
    · subst hcb
      rw [Function.update_same, transferAt, predsOf, hps, hidx]
      show transfer _ _ _ ⊆ transfer c ((expanded_basic_blocks f).getD idx []) _
      exact transfer_mono c _ (mergeOuts_mono (fun p _ => hgrow p))
    · rw [Function.update_noteq hcb]
      refine subset_trans (hinv c hc).1 ?_
      exact transfer_mono _ _ (mergeOuts_mono (fun p _ => hgrow p))
  · by_cases hcb : c = b
    · subst hcb
      rw [Function.update_same]
      exact hUnew
    · rw [Function.update_noteq hcb]
      exact (hinv c hc).2

theorem sum_map_lt_of_lt :
    ∀ (l : List String), l.Nodup → ∀ (b : String), b ∈ l →
      ∀ (g g' : String → Nat), (∀ c ∈ l, c ≠ b → g' c = g c) → g' b < g b →
      (l.map g').sum < (l.map g).sum
  | [], _, b, hb, _, _, _, _ => by simp at hb
  | a :: l, hnd, b, hb, g, g', heq, hlt => by
      rw [List.nodup_cons] at hnd
      rw [List.map_cons, List.map_cons, List.sum_cons, List.sum_cons]
      rcases List.mem_cons.mp hb with rfl | hb
      · have hrest : (l.map g').sum = (l.map g).sum := by
          refine congrArg List.sum (List.map_congr_left ?_)
          intro c hc
          exact heq c (List.mem_cons_of_mem _ hc) (fun h => hnd.1 (h ▸ hc))
        omega
      · have ha : g' a = g a := heq a (List.mem_cons_self a l) (fun h => hnd.1 (h ▸ hb))
        have := sum_map_lt_of_lt l hnd.2 b hb g g'
          (fun c hc hcb => heq c (List.mem_cons_of_mem a hc) hcb) hlt
        omega

/-- Total remaining room for the OUT sets to grow into the universe. -/
def rdSlack (f : Function) (outputs : String → Finset Definition) : Nat :=
  ((rdNames f).map (fun b => (rdUniverse f).card - (outputs b).card)).sum

theorem rdSlack_lt (f : Function) {outputs : String → Finset Definition}
    {out' : Finset Definition} {b : String} (hb : b ∈ rdNames f)
    (hsub : outputs b ⊆ out') (hne : out' ≠ outputs b) (hU : out' ⊆ rdUniverse f) :
    rdSlack f (Function.update outputs b out') < rdSlack f outputs := by
  refine sum_map_lt_of_lt (rdNames f) (nodup_rdNames f) b hb _ _ ?_ ?_
  · intro c _ hcb
    rw [Function.update_noteq hcb]
  · rw [Function.update_same]
    have h1 : (outputs b).card < out'.card :=
      Finset.card_lt_card (Finset.ssubset_iff_subset_ne.mpr ⟨hsub, fun h => hne h.symm⟩)
    have h2 : out'.card ≤ (rdUniverse f).card := Finset.card_le_card hU
    omega

/-- The longest successor list of the CFG: a bound on how much one
iteration can grow the worklist. -/
def rdWidth (f : Function) : Nat :=
  ((control_flow_graph f).map (fun p => p.2.length)).foldr max 0

theorem le_foldr_max : ∀ (l : List Nat) (x : Nat), x ∈ l → x ≤ l.foldr max 0
  | [], x, hx => by simp at hx
  | a :: l, x, hx => by
      rw [List.foldr_cons]
      rcases List.mem_cons.mp hx with rfl | hx
      · exact le_max_left _ _
      · exact le_trans (le_foldr_max l x hx) (le_max_right _ _)

theorem sucs_length_le_width (f : Function) {b : String} {sucs : List String}
    (h : lookupA (control_flow_graph f) b = some sucs) : sucs.length ≤ rdWidth f :=
  le_foldr_max _ _ (List.mem_map_of_mem (fun p => p.2.length) (lookupA_mem h))

/-- The combined termination measure of the worklist loop. -/
def rdMeasure (f : Function) (outputs : String → Finset Definition) (wl : List String) : Nat :=
  rdSlack f outputs * (rdWidth f + 1) + wl.length

theorem rdLoop_succ_eq (f : Function) (fuel : Nat)
    (inputs outputs : String → Finset Definition) (wl : List String) :
    rdLoop f (fuel + 1) inputs outputs wl =
      if hwl : wl = [] then some (PRes.ok (inputs, outputs))
      else
        match lookupA (invert_digraph (control_flow_graph f)) (wl.getLast hwl),
              lookupA (block_name_to_idx f) (wl.getLast hwl),
              lookupA (control_flow_graph f) (wl.getLast hwl) with
        | some ps, some idx, some sucs =>
            if transfer (wl.getLast hwl) ((expanded_basic_blocks f).getD idx [])
                (mergeOuts ps outputs) = outputs (wl.getLast hwl) then
              rdLoop f fuel
                (Function.update inputs (wl.getLast hwl) (mergeOuts ps outputs))
                outputs wl.dropLast
            else
              rdLoop f fuel
                (Function.update inputs (wl.getLast hwl) (mergeOuts ps outputs))
                (Function.update outputs (wl.getLast hwl)
                  (transfer (wl.getLast hwl) ((expanded_basic_blocks f).getD idx [])
                    (mergeOuts ps outputs)))
                (wl.dropLast ++ sucs)
        | _, _, _ => some PRes.panic := rfl

theorem rdLoop_succ_some (f : Function) (fuel : Nat)
    (inputs outputs : String → Finset Definition) (wl : List String)
    (hwl : wl ≠ []) {ps : List String} {idx : Nat} {sucs : List String}
    (hps : lookupA (invert_digraph (control_flow_graph f)) (wl.getLast hwl) = some ps)
    (hidx : lookupA (block_name_to_idx f) (wl.getLast hwl) = some idx)
    (hsucs : lookupA (control_flow_graph f) (wl.getLast hwl) = some sucs) :
    rdLoop f (fuel + 1) inputs outputs wl =
      if transfer (wl.getLast hwl) ((expanded_basic_blocks f).getD idx [])
          (mergeOuts ps outputs) = outputs (wl.getLast hwl) then
        rdLoop f fuel
          (Function.update inputs (wl.getLast hwl) (mergeOuts ps outputs))
          outputs wl.dropLast
      else
        rdLoop f fuel
          (Function.update inputs (wl.getLast hwl) (mergeOuts ps outputs))
          (Function.update outputs (wl.getLast hwl)
            (transfer (wl.getLast hwl) ((expanded_basic_blocks f).getD idx [])
              (mergeOuts ps outputs)))
          (wl.dropLast ++ sucs) := by
  rw [rdLoop_succ_eq, dif_neg hwl, hps, hidx, hsucs]

theorem rdLoop_mono (f : Function) :
    ∀ (fuel fuel' : Nat), fuel ≤ fuel' →
    ∀ (inputs outputs : String → Finset Definition) (wl : List String)
      (r : PRes ((String → Finset Definition) × (String → Finset Definition))),
      rdLoop f fuel inputs outputs wl = some r →
      rdLoop f fuel' inputs outputs wl = some r := by
  intro fuel
  induction fuel with
  | zero =>
      intro fuel' _ inputs outputs wl r h
      simp [rdLoop] at h
  | succ n ih =>
      intro fuel' hle inputs outputs wl r h
      obtain ⟨m, rfl⟩ : ∃ m, fuel' = m + 1 := ⟨fuel' - 1, by omega⟩
      have hnm : n ≤ m := by omega
      by_cases hwl : wl = []
      · subst hwl
        rw [rdLoop_succ_eq, dif_pos rfl] at h ⊢
        exact h
      · rw [rdLoop_succ_eq, dif_neg hwl] at h ⊢
        cases hps : lookupA (invert_digraph (control_flow_graph f)) (wl.getLast hwl) with
        | none => rw [hps] at h; exact h
        | some ps =>
          cases hidx : lookupA (block_name_to_idx f) (wl.getLast hwl) with
          | none => rw [hps, hidx] at h; exact h
          | some idx =>
            cases hsucs : lookupA (control_flow_graph f) (wl.getLast hwl) with
            | none => rw [hps, hidx, hsucs] at h; exact h
            | some sucs =>
                rw [hps, hidx, hsucs] at h
                have h' : (if transfer (wl.getLast hwl) ((expanded_basic_blocks f).getD idx [])
                    (mergeOuts ps outputs) = outputs (wl.getLast hwl) then
                  rdLoop f n (Function.update inputs (wl.getLast hwl) (mergeOuts ps outputs))
                    outputs wl.dropLast
                else
                  rdLoop f n (Function.update inputs (wl.getLast hwl) (mergeOuts ps outputs))
                    (Function.update outputs (wl.getLast hwl)
                      (transfer (wl.getLast hwl) ((expanded_basic_blocks f).getD idx [])
                        (mergeOuts ps outputs)))
                    (wl.dropLast ++ sucs)) = some r := h
                show (if transfer (wl.getLast hwl) ((expanded_basic_blocks f).getD idx [])
                    (mergeOuts ps outputs) = outputs (wl.getLast hwl) then
                  rdLoop f m (Function.update inputs (wl.getLast hwl) (mergeOuts ps outputs))
                    outputs wl.dropLast
                else
                  rdLoop f m (Function.update inputs (wl.getLast hwl) (mergeOuts ps outputs))
                    (Function.update outputs (wl.getLast hwl)
                      (transfer (wl.getLast hwl) ((expanded_basic_blocks f).getD idx [])
                        (mergeOuts ps outputs)))
                    (wl.dropLast ++ sucs)) = some r
                by_cases hc : transfer (wl.getLast hwl) ((expanded_basic_blocks f).getD idx [])
                    (mergeOuts ps outputs) = outputs (wl.getLast hwl)
                · rw [if_pos hc] at h' ⊢
                  exact ih m hnm _ _ _ _ h'
                · rw [if_neg hc] at h' ⊢
                  exact ih m hnm _ _ _ _ h'

/-- Well-formedness of the CFG: every successor names an existing block.
A `Jump`/`Branch` to an undefined label violates this. -/
def rdWF (f : Function) : Prop :=
  ∀ p ∈ control_flow_graph f, ∀ v ∈ p.2, v ∈ (control_flow_graph f).map Prod.fst

instance (f : Function) : Decidable (rdWF f) := by
  rw [rdWF]
  infer_instance

theorem transfer_out_subset_universe (f : Function) {outputs : String → Finset Definition}
    (hinv : RDInv f outputs) {b : String} {ps : List String} {idx : Nat}
    (hps : lookupA (invert_digraph (control_flow_graph f)) b = some ps)
    (hidx : lookupA (block_name_to_idx f) b = some idx) :
    transfer b ((expanded_basic_blocks f).getD idx []) (mergeOuts ps outputs)
      ⊆ rdUniverse f := by
  refine subset_trans (transfer_subset _ _ _) (Finset.union_subset ?_ ?_)
  · exact genSet_subset_universe f hidx
  · exact mergeOuts_subset (fun p hp => (hinv p (preds_mem_rdNames f hps p hp)).2)

theorem rdLoop_terminates (f : Function) (hwf : rdWF f) :
    ∀ (N : Nat) (inputs outputs : String → Finset Definition) (wl : List String),
      rdMeasure f outputs wl ≤ N →
      RDInv f outputs → (∀ x ∈ wl, x ∈ rdNames f) →
      ∃ fuel res, rdLoop f fuel inputs outputs wl = some (PRes.ok res) := by
  intro N
  induction N with
  | zero =>
      intro inputs outputs wl hN _ _
      have hwl : wl = [] := List.eq_nil_of_length_eq_zero (by rw [rdMeasure] at hN; omega)
      subst hwl
      exact ⟨1, (inputs, outputs), by rw [rdLoop_succ_eq, dif_pos rfl]⟩
  | succ N ih =>
      intro inputs outputs wl hN hinv hwl
      by_cases hnil : wl = []
      · subst hnil
        exact ⟨1, (inputs, outputs), by rw [rdLoop_succ_eq, dif_pos rfl]⟩
      · have hbmem : wl.getLast hnil ∈ rdNames f := hwl _ (List.getLast_mem hnil)
        have hcfg : wl.getLast hnil ∈ (control_flow_graph f).map Prod.fst :=
          (mem_cfg_keys_iff_rdNames f _).mpr hbmem
        obtain ⟨ps, hps⟩ :
            ∃ ps, lookupA (invert_digraph (control_flow_graph f)) (wl.getLast hnil)
              = some ps := by
          apply lookupA_isSome_of_mem_keys
          rw [invert_digraph_keys]
          exact hcfg
        obtain ⟨idx, hidx⟩ :
            ∃ idx, lookupA (block_name_to_idx f) (wl.getLast hnil) = some idx :=
          lookupA_isSome_of_mem_keys hbmem
        obtain ⟨sucs, hsucs⟩ :
            ∃ sucs, lookupA (control_flow_graph f) (wl.getLast hnil) = some sucs :=
          lookupA_isSome_of_mem_keys hcfg
        have hlen : 1 ≤ wl.length := List.length_pos.mpr hnil
        by_cases hc : transfer (wl.getLast hnil) ((expanded_basic_blocks f).getD idx [])
            (mergeOuts ps outputs) = outputs (wl.getLast hnil)
        · have hmeas : rdMeasure f outputs wl.dropLast ≤ N := by
            rw [rdMeasure] at hN ⊢
            rw [List.length_dropLast]
            omega
          obtain ⟨fuel, res, hres⟩ := ih
            (Function.update inputs (wl.getLast hnil) (mergeOuts ps outputs)) outputs
            wl.dropLast hmeas hinv
            (fun x hx => hwl x (List.dropLast_subset wl hx))
          refine ⟨fuel + 1, res, ?_⟩
          rw [rdLoop_succ_some f fuel inputs outputs wl hnil hps hidx hsucs, if_pos hc]
          exact hres
        · have hsubU := transfer_out_subset_universe f hinv hps hidx
          have hsub : outputs (wl.getLast hnil) ⊆
              transfer (wl.getLast hnil) ((expanded_basic_blocks f).getD idx [])
                (mergeOuts ps outputs) := by
            have h0 := (hinv _ hbmem).1
            simp only [transferAt, predsOf, hps, hidx, Option.getD_some] at h0
            exact h0
          have hinv' := RDInv_update f hinv hbmem hps hidx
          have hslack := rdSlack_lt f hbmem hsub hc hsubU
          have hmeas : rdMeasure f
              (Function.update outputs (wl.getLast hnil)
                (transfer (wl.getLast hnil) ((expanded_basic_blocks f).getD idx [])
                  (mergeOuts ps outputs)))
              (wl.dropLast ++ sucs) ≤ N := by
            rw [rdMeasure] at hN ⊢
            rw [List.length_append, List.length_dropLast]
            have hW := sucs_length_le_width f hsucs
            have e1 : rdSlack f (Function.update outputs (wl.getLast hnil)
                  (transfer (wl.getLast hnil) ((expanded_basic_blocks f).getD idx [])
                    (mergeOuts ps outputs))) * (rdWidth f + 1)
                ≤ (rdSlack f outputs - 1) * (rdWidth f + 1) :=
              Nat.mul_le_mul_right _ (by omega)
            have e2 : (rdSlack f outputs - 1) * (rdWidth f + 1)
                = rdSlack f outputs * (rdWidth f + 1) - 1 * (rdWidth f + 1) :=
              Nat.sub_mul _ _ _
            have e3 : 1 ≤ rdSlack f outputs := by omega
            have e4 : rdWidth f + 1 ≤ rdSlack f outputs * (rdWidth f + 1) := by
              calc rdWidth f + 1 = 1 * (rdWidth f + 1) := by omega
              _ ≤ rdSlack f outputs * (rdWidth f + 1) := Nat.mul_le_mul_right _ e3
            omega
          obtain ⟨fuel, res, hres⟩ := ih _ _ _ hmeas hinv'
            (by
              intro x hx
              rcases List.mem_append.mp hx with hx | hx
              · exact hwl x (List.dropLast_subset wl hx)
              · rw [← mem_cfg_keys_iff_rdNames]
                exact hwf _ (lookupA_mem hsucs) x hx)
          refine ⟨fuel + 1, res, ?_⟩
          rw [rdLoop_succ_some f fuel inputs outputs wl hnil hps hidx hsucs, if_neg hc]
          exact hres

/- ## Claim C9: the reaching-definitions worklist terminates -/

theorem reaching_definitions_mono (f : Function) {fuel fuel' : Nat} (hle : fuel ≤ fuel')
    {r : PRes (List (String × (Finset Definition × Finset Definition)))}
    (h : reaching_definitions f fuel = some r) : reaching_definitions f fuel' = some r := by
  rw [reaching_definitions] at h ⊢
  cases hr : rdLoop f fuel (fun _ => ∅) (fun _ => ∅) (rdNames f) with
  | none => rw [hr] at h; exact absurd h (by simp)
  | some res =>
      rw [hr] at h
      rw [rdLoop_mono f fuel fuel' hle _ _ _ _ hr]
      exact h

/-- Claim C9, amended: for every function whose control-flow graph is
well-formed (every `Jump`/`Branch` target names an existing block), the
worklist loop of `reaching_definitions` terminates — some finite fuel makes
it reach the empty worklist without panicking — and the returned mapping
has exactly the block names as keys, each bound to an (IN, OUT) pair. -/
theorem reaching_definitions_terminates (f : Function) (hwf : rdWF f) :
    ∃ fuel m, reaching_definitions f fuel = some (PRes.ok m) ∧
      m.map Prod.fst = rdNames f ∧
      ∀ b ∈ rdNames f, ∃ io, (b, io) ∈ m := by
  obtain ⟨fuel, res, hres⟩ := rdLoop_terminates f hwf
    (rdMeasure f (fun _ => ∅) (rdNames f)) (fun _ => ∅) (fun _ => ∅) (rdNames f)
    (le_refl _) (RDInv_initial f) (fun _ hx => hx)
  refine ⟨fuel, (rdNames f).map (fun n => (n, (res.1 n, res.2 n))), ?_, ?_, ?_⟩
  · rw [reaching_definitions, hres]
  · rw [List.map_map]
    exact List.map_congr_left (fun n _ => rfl) |>.trans (List.map_id _)
  · intro b hb
    exact ⟨(res.1 b, res.2 b), List.mem_map_of_mem (fun n => (n, (res.1 n, res.2 n))) hb⟩

theorem reaching_definitions_terminates_witness :
    ∃ fuel m, reaching_definitions diamondF fuel = some (PRes.ok m) ∧
      m.map Prod.fst = rdNames diamondF ∧
      ∀ b ∈ rdNames diamondF, ∃ io, (b, io) ∈ m :=
  reaching_definitions_terminates diamondF (by decide)

/-- A function jumping to an undefined label, after a definition (so that
the jump's successor actually enters the worklist). -/
def badF : Function :=
  { name := "main", args := [], return_type := none,
    instrs := [Code.instr (Instruction.const "x" Typ.int (Literal.int 1)),
               Code.instr (Instruction.effect EffectOps.jump [] [] ["nowhere"])] }

/-- Claim C9 as stated (for every input function) is false: on `badF` the
worklist eventually pops the nonexistent block name `nowhere` and the Rust
code panics on `predecessors[&b]` — the loop never returns a mapping. -/
theorem reaching_definitions_counterexample :
    reaching_definitions badF 4 = some PRes.panic ∧
    ¬ ∃ fuel m, reaching_definitions badF fuel = some (PRes.ok m) := by
  have h4 : reaching_definitions badF 4 = some PRes.panic := by decide
  refine ⟨h4, ?_⟩
  rintro ⟨fuel, m, hm⟩
  rcases le_total fuel 4 with hle | hle
  · have := reaching_definitions_mono badF hle hm
    rw [this] at h4
    exact PRes.noConfusion (Option.some.inj h4)
  · have := reaching_definitions_mono badF hle h4
    rw [hm] at this
    exact PRes.noConfusion (Option.some.inj this)

/- ## src/analyze.rs: dominators, dominance frontier, dominator tree -/

/-- The body of the `for block in block_names` loop of
`analyze.rs::dominators`: recompute `block`'s set as
`{block} ∪ ⋂ doms(p) for p in preds(block)` using the map being updated
in place (Gauss-Seidel), and store it. -/
def domPassStep (preds : ControlFlowGraph) (m : List (String × Finset String))
    (block : String) : List (String × Finset String) :=
  let pl := (lookupA preds block).getD []
  let pdoms := (m.filter (fun p => decide (p.1 ∈ pl))).map Prod.snd
  let update := match pdoms with
    | [] => {block}
    | d :: ds => insert block (ds.foldl (fun a e => a ∩ e) d)
  insertA m block update

/-- The outer `loop` of `analyze.rs::dominators`, with explicit fuel:
run a full pass; stop when the map no longer changes. -/
def domLoop (names : List String) (preds : ControlFlowGraph) :
    Nat → List (String × Finset String) → Option (List (String × Finset String))
  | 0, _ => none
  | fuel + 1, last =>
      let next := names.foldl (domPassStep preds) last
      if next = last then some last else domLoop names preds fuel next

/-- `analyze.rs::dominators`: every block's dominator set starts as the
universe of block names; iterate to the fixpoint. -/
def dominators (f : Function) (fuel : Nat) : Option (List (String × Finset String)) :=
  let names := (control_flow_graph f).map Prod.fst
  domLoop names (invert_digraph (control_flow_graph f)) fuel
    (names.map (fun b => (b, names.toFinset)))

/-- `util.rs::invert_hashset`. -/
def invert_hashset (g : List (String × Finset String)) : List (String × Finset String) :=
  g.map (fun p => (p.1, ((g.filter (fun q => decide (p.1 ∈ q.2))).map Prod.fst).toFinset))

/-- `analyze.rs::dominance_frontier`: for each dominator `d` (via the
inverted who-dominates-whom map `subs`), the blocks `n` with some
predecessor in `subs` and `n` itself not in `subs`, computed by the
source's fold. -/
def dominance_frontier (f : Function) (fuel : Nat) : Option (List (String × List String)) :=
  (dominators f fuel).map (fun doms =>
    (invert_hashset doms).map (fun ds =>
      (ds.1,
       ((invert_digraph (control_flow_graph f)).filter (fun bp =>
          bp.2.foldl (fun dominated pr =>
            (dominated || decide (pr ∈ ds.2)) && decide (bp.1 ∉ ds.2)) false)).map Prod.fst)))

/-- The children list `analyze.rs::dominator_tree` computes for one block:
the nodes of which that block is simultaneously a CFG predecessor and a
dominator. -/
def dominator_tree_children_of (f : Function) (doms : List (String × Finset String))
    (b : String) : List String :=
  ((invert_digraph (control_flow_graph f)).filter (fun np =>
    decide (b ∈ (lookupA doms np.1).getD ∅) && decide (b ∈ np.2))).map Prod.fst

/-- `analyze.rs::dominator_tree`. -/
def dominator_tree (f : Function) (fuel : Nat) : Option (List (String × List String)) :=
  (dominators f fuel).map (fun doms =>
    doms.map (fun bp => (bp.1, dominator_tree_children_of f doms bp.1)))

/- ## Claim C3: what dominator_tree actually maps each node to -/

theorem lookupA_map_keyfun {α β : Type} (g : String → β) :
    ∀ (l : List (String × α)) (k : String),
      lookupA (l.map (fun p => (p.1, g p.1))) k = (lookupA l k).map (fun _ => g k)
  | [], k => rfl
  | p :: l, k => by
      rw [List.map_cons, lookupA_cons, lookupA_cons]
      by_cases h : p.1 = k
      · rw [if_pos h, if_pos h, Option.map_some', h]
      · rw [if_neg h, if_neg h, lookupA_map_keyfun g l k]

theorem lookupA_eq_some_iff_of_nodup {α : Type} {m : List (String × α)}
    (hnd : (m.map Prod.fst).Nodup) {k : String} {v : α} :
    lookupA m k = some v ↔ (k, v) ∈ m := by
  constructor
  · exact lookupA_mem
  · intro hmem
    induction m with
    | nil => simp at hmem
    | cons p m ih =>
        rw [List.map_cons, List.nodup_cons] at hnd
        rw [lookupA_cons]
        rcases List.mem_cons.mp hmem with rfl | hmem
        · rw [if_pos rfl]
        · have hne : p.1 ≠ k := by
            rintro rfl
            have := List.mem_map_of_mem Prod.fst hmem
            exact hnd.1 this
          rw [if_neg hne]
          exact ih hnd.2 hmem

theorem nodup_cfg_keys (f : Function) : ((control_flow_graph f).map Prod.fst).Nodup := by
  apply nodup_keys_insertA
  exact nodup_keys_foldl_insertA
    (fun i => get_block_name ((expanded_basic_blocks f).getD i []) i f.name)
    (fun i => block_successors (expanded_basic_blocks f) f.name i)
    (List.range ((expanded_basic_blocks f).length - 1)) [] (by simp)

/-- Claim C3, amended: `dominator_tree` maps each node `b` (in the
computed dominator map) to the list of nodes `n` such that `b` is a CFG
predecessor of `n` and `b` is in `n`'s dominator set — not to the children
of `b` in the immediate-dominator tree.  A node whose immediate dominator
is not among its CFG predecessors therefore appears under no parent. -/
theorem dominator_tree_children (f : Function) (fuel : Nat)
    {doms : List (String × Finset String)} {t : List (String × List String)}
    (hdoms : dominators f fuel = some doms)
    (ht : dominator_tree f fuel = some t)
    {b : String} {ch : List String} (hch : lookupA t b = some ch) (n : String) :
    n ∈ ch ↔ ∃ ps, lookupA (invert_digraph (control_flow_graph f)) n = some ps ∧
      b ∈ ps ∧ b ∈ (lookupA doms n).getD ∅ := by
  rw [dominator_tree, hdoms, Option.map_some'] at ht
  have ht' : doms.map (fun bp => (bp.1, dominator_tree_children_of f doms bp.1)) = t :=
    Option.some.inj ht
  subst ht'
  rw [lookupA_map_keyfun (dominator_tree_children_of f doms) doms b] at hch
  obtain ⟨s, _, hc⟩ := Option.map_eq_some'.mp hch
  have hpnd : ((invert_digraph (control_flow_graph f)).map Prod.fst).Nodup := by
    rw [invert_digraph_keys]
    exact nodup_cfg_keys f
  rw [← hc, dominator_tree_children_of]
  constructor
  · intro hn
    obtain ⟨np, hnp, h1⟩ := List.mem_map.mp hn
    have hq := List.mem_filter.mp hnp
    have hq2 := hq.2
    rw [Bool.and_eq_true, decide_eq_true_eq, decide_eq_true_eq] at hq2
    refine ⟨np.2, ?_, hq2.2, by rw [← h1]; exact hq2.1⟩
    rw [lookupA_eq_some_iff_of_nodup hpnd]
    have : (np.1, np.2) ∈ invert_digraph (control_flow_graph f) := by
      rw [Prod.mk.eta]
      exact hq.1
    rwa [h1] at this
  · rintro ⟨ps, hps, hbps, hbdom⟩
    have hmem : (n, ps) ∈ invert_digraph (control_flow_graph f) :=
      (lookupA_eq_some_iff_of_nodup hpnd).mp hps
    refine List.mem_map.mpr ⟨(n, ps), List.mem_filter.mpr ⟨hmem, ?_⟩, rfl⟩
    rw [Bool.and_eq_true, decide_eq_true_eq, decide_eq_true_eq]
    exact ⟨hbdom, hbps⟩

/-- Claim C3 as stated is false on the code: in the diamond CFG
(`entry → main1 → {L, R} → M → exit`), node `M`'s immediate dominator is
`main1` (its dominator set is `{entry, main1, M}`), but `M` appears in no
children list of the computed dominator tree at all, because `main1` is
not a CFG predecessor of `M`. -/
theorem dominator_tree_counterexample :
    dominator_tree diamondF 8 =
      some [("entry", ["main1"]), ("main1", ["L", "R"]), ("L", []), ("R", []),
            ("M", ["exit"]), ("exit", [])] ∧
    (∀ p ∈ [("entry", ["main1"]), ("main1", ["L", "R"]), (("L" : String), ([] : List String)),
            ("R", []), ("M", ["exit"]), ("exit", [])], "M" ∉ p.2) ∧
    (dominators diamondF 8).map (fun doms => lookupA doms "M")
      = some (some ({"M", "main1", "entry"} : Finset String)) := by
  refine ⟨by decide, by decide, rfl⟩

theorem dominator_tree_children_witness :
    ∃ doms t ch, dominators diamondF 8 = some doms ∧ dominator_tree diamondF 8 = some t ∧
      lookupA t "main1" = some ch ∧
      ("L" ∈ ch ↔ ∃ ps, lookupA (invert_digraph (control_flow_graph diamondF)) "L" = some ps ∧
        "main1" ∈ ps ∧ "main1" ∈ (lookupA doms "L").getD ∅) := by
  refine ⟨_, _, ["L", "R"], rfl, rfl, by decide, ?_⟩
  exact dominator_tree_children diamondF 8 rfl rfl (by decide) "L"

/- ## src/lvn.rs: local value numbering -/

/-- `lvn.rs::LVNValue` (`Constant` / `ValueBinaryOp` / `ValueUnaryOp`). -/
inductive LVNValue
  | constant (value : Literal)
  | valueBinaryOp (op : ValueOps) (a b : Nat)
  | valueUnaryOp (op : ValueOps) (a : Nat)
deriving DecidableEq, Repr

/-- `lvn.rs::LVN`: the value table. -/
structure LVN where
  next : Nat
  folding : Bool
  var2num : List (String × Nat)
  val2num : List (LVNValue × Nat)
  num2var : List (Nat × String)
  num2const : List (Nat × Literal)
deriving DecidableEq, Repr

/-- `LVN::new`. -/
def LVN.new (folding : Bool) : LVN :=
  { next := 0, folding := folding, var2num := [], val2num := [], num2var := [], num2const := [] }

/-- `LVN::get_const_if_fold`. -/
def LVN.get_const_if_fold (st : LVN) (num : Nat) : Option Literal :=
  if !st.folding then none else lookupA st.num2const num

/-- `LVN::last_writes`: right-to-left scan marking, per instruction with a
destination, whether it is the last write to that destination. -/
def last_writes (block : BasicBlock) : List Bool :=
  ((block.reverse.foldl (fun (st : List String × List Bool) instr =>
      match instr with
      | Code.instr (Instruction.value _ dest _ _ _ _) =>
          (insertS st.1 dest, st.2 ++ [!st.1.contains dest])
      | Code.instr (Instruction.const dest _ _) =>
          (insertS st.1 dest, st.2 ++ [!st.1.contains dest])
      | _ => (st.1, st.2 ++ [false]))
    ([], [])).2).reverse

/-- `LVN::read_first`: the variables read by a `Value` instruction's
arguments before any local write.  Arguments of `Effect` instructions are
not inspected, and `Constant`s only record their write. -/
def read_first (block : BasicBlock) : List String :=
  (block.foldl (fun (st : List String × List String) instr =>
      match instr with
      | Code.instr (Instruction.value _ dest _ args _ _) =>
          (args.foldl (fun r a => if st.2.contains a || r.contains a then r else r ++ [a]) st.1,
           insertS st.2 dest)
      | Code.instr (Instruction.const dest _ _) => (st.1, insertS st.2 dest)
      | _ => st)
    ([], [])).1

/-- `LVN::register_var`: allocate the next number for a variable. -/
def LVN.register_var (st : LVN) (var : String) : Nat × LVN :=
  (st.next,
   { st with next := st.next + 1, var2num := insertA st.var2num var st.next })

/-- `LVN::register_dest`: choose the emitted name (`dest`, or `lvn.{num}`
when this is not the last write) and bind `num2var`. -/
def LVN.register_dest (st : LVN) (dest : String) (num : Nat) (last_write : Bool) : String × LVN :=
  let var := if last_write then dest else "lvn." ++ toString num
  (var, { st with num2var := insertA st.num2var num var })

/-- `LVN::calculate_binary_op` (`Int.div` truncates toward zero like Rust
`i64` division; overflow is not modelled). -/
def calculate_binary_op (op : ValueOps) (arg0 arg1 : Literal) : Option Literal :=
  match arg0, arg1 with
  | Literal.int v0, Literal.int v1 =>
      match op with
      | ValueOps.add => some (Literal.int (v0 + v1))
      | ValueOps.sub => some (Literal.int (v0 - v1))
      | ValueOps.mul => some (Literal.int (v0 * v1))
      | ValueOps.div => if v1 = 0 then none else some (Literal.int (Int.tdiv v0 v1))
      | ValueOps.eq => some (Literal.bool (decide (v0 = v1)))
      | ValueOps.lt => some (Literal.bool (decide (v0 < v1)))
      | ValueOps.gt => some (Literal.bool (decide (v0 > v1)))
      | ValueOps.le => some (Literal.bool (decide (v0 ≤ v1)))
      | ValueOps.ge => some (Literal.bool (decide (v0 ≥ v1)))
      | ValueOps.vand => some (Literal.bool (decide (v0 ≠ 0) && decide (v1 ≠ 0)))
      | ValueOps.vor => some (Literal.bool (decide (v0 ≠ 0) || decide (v1 ≠ 0)))
      | _ => none
  | Literal.bool v0, Literal.bool v1 =>
      match op with
      | ValueOps.eq => some (Literal.bool (v0 == v1))
      | ValueOps.lt => some (Literal.bool (!v0 && v1))
      | ValueOps.gt => some (Literal.bool (v0 && !v1))
      | ValueOps.le => some (Literal.bool (!v0 || v1))
      | ValueOps.ge => some (Literal.bool (v0 || !v1))
      | ValueOps.vand => some (Literal.bool (v0 && v1))
      | ValueOps.vor => some (Literal.bool (v0 || v1))
      | _ => none
  | _, _ => none

/-- `LVN::calculate_unary_op`. -/
def calculate_unary_op (op : ValueOps) (arg : Literal) : Option Literal :=
  match arg with
  | Literal.int v => match op with
      | ValueOps.vnot => some (Literal.bool (decide (v = 0)))
      | _ => none
  | Literal.bool v => match op with
      | ValueOps.vnot => some (Literal.bool (!v))
      | _ => none

/-- `LVN::fold_value`: record a constant for a freshly numbered canonical
value when it can be evaluated; mirror of the source's `if`/`else if`
chain (the algebraic identities run only when the operands are not both
known constants). -/
def LVN.fold_value (st : LVN) (val_num : Nat) (canonical_val : LVNValue) : LVN :=
  match canonical_val with
  | LVNValue.constant value =>
      { st with num2const := insertA st.num2const val_num value }
  | LVNValue.valueBinaryOp op a b =>
      match lookupA st.num2const a, lookupA st.num2const b with
      | some v0, some v1 =>
          match calculate_binary_op op v0 v1 with
          | some v => { st with num2const := insertA st.num2const val_num v }
          | none => st
      | _, _ =>
          if a = b then
            if op = ValueOps.eq ∨ op = ValueOps.le ∨ op = ValueOps.ge then
              { st with num2const := insertA st.num2const val_num (Literal.bool true) }
            else st
          else if op = ValueOps.vor ∧
              (lookupA st.num2const a = some (Literal.bool true) ∨
               lookupA st.num2const b = some (Literal.bool true)) then
            { st with num2const := insertA st.num2const val_num (Literal.bool true) }
          else if op = ValueOps.vand ∧
              (lookupA st.num2const a = some (Literal.bool false) ∨
               lookupA st.num2const b = some (Literal.bool false)) then
            { st with num2const := insertA st.num2const val_num (Literal.bool false) }
          else st
  | LVNValue.valueUnaryOp op a =>
      match lookupA st.num2const a with
      | some v =>
          match calculate_unary_op op v with
          | some r => { st with num2const := insertA st.num2const val_num r }
          | none => st
      | none => st

/-- `LVN::register_val`: allocate the number, attempt folding, register
the canonical value and bind the emitted destination name. -/
def LVN.register_val (st : LVN) (dest : String) (val : LVNValue) (last_write : Bool) :
    (String × Nat) × LVN :=
  let p1 := st.register_var dest
  let st2 := p1.2.fold_value p1.1 val
  let st3 := { st2 with val2num := insertA st2.val2num val p1.1 }
  let p2 := st3.register_dest dest p1.1 last_write
  ((p2.1, p1.1), p2.2)

/-- `LVN::replace_args`: `num2var[var2num[arg]]` per argument; a missing
entry is a Rust `unwrap` panic (`none`). -/
def LVN.replace_args (st : LVN) (args : List String) : Option (List String) :=
  args.mapM (fun arg => (lookupA st.var2num arg).bind (fun num => lookupA st.num2var num))

/-- `LVN::canonicalize_instruction`.  Outer `none` is an `unwrap`/index
panic; inner `none` means "no canonical value" (labels, effects, calls). -/
def LVN.canonicalize_instruction (st : LVN) (instr : Code) :
    Option (Option (LVNValue × String × Typ)) :=
  match instr with
  | Code.instr (Instruction.const dest const_type value) =>
      some (some (LVNValue.constant value, dest, const_type))
  | Code.instr (Instruction.value op dest op_type args _ _) =>
      if op = ValueOps.vnot ∨ op = ValueOps.id then
        match args.get? 0 with
        | none => none
        | some a0 =>
            match lookupA st.var2num a0 with
            | none => none
            | some n0 => some (some (LVNValue.valueUnaryOp op n0, dest, op_type))
      else if op ≠ ValueOps.vnot ∧ op ≠ ValueOps.id ∧ op ≠ ValueOps.call then
        match args.get? 0, args.get? 1 with
        | some a0, some a1 =>
            match lookupA st.var2num a0, lookupA st.var2num a1 with
            | some n0, some n1 =>
                let p := if op = ValueOps.add ∨ op = ValueOps.mul then
                    (if n0 > n1 then (n1, n0) else (n0, n1))
                  else (n0, n1)
                some (some (LVNValue.valueBinaryOp op p.1 p.2, dest, op_type))
            | _, _ => none
        | _, _ => none
      else some none
  | _ => some none

/-- `LVN::generate_copy_instruction`. -/
def LVN.generate_copy_instruction (st : LVN) (value_number : Nat) (dest : String)
    (op_type : Typ) : Option Code :=
  (lookupA st.num2var value_number).map (fun var =>
    Code.instr (Instruction.value ValueOps.id dest op_type [var] [] []))

/-- `LVN::generate_const_instruction`. -/
def generate_const_instruction (value : Literal) (dest : String) : Code :=
  Code.instr (Instruction.const dest
    (match value with
     | Literal.bool _ => Typ.bool
     | Literal.int _ => Typ.int) value)

/-- `LVN::generate_optimized_instruction`: rebuild the instruction with
rewritten arguments and the chosen destination. -/
def LVN.generate_optimized_instruction (st : LVN) (instr : Code) (dest : Option String) :
    Option Code :=
  match instr with
  | Code.label _ => some instr
  | Code.instr (Instruction.const _ const_type value) =>
      dest.map (fun d => Code.instr (Instruction.const d const_type value))
  | Code.instr (Instruction.value op _ op_type args funcs labels) =>
      match dest, st.replace_args args with
      | some d, some args2 => some (Code.instr (Instruction.value op d op_type args2 funcs labels))
      | _, _ => none
  | Code.instr (Instruction.effect op args funcs labels) =>
      (st.replace_args args).map (fun args2 =>
        Code.instr (Instruction.effect op args2 funcs labels))

/-- `LVN::optimize_instruction`. -/
def LVN.optimize_instruction (st : LVN) (instr : Code) (last_write : Bool) :
    Option (Code × LVN) :=
  match st.canonicalize_instruction instr with
  | none => none
  | some none => (st.generate_optimized_instruction instr none).map (fun c => (c, st))
  | some (some (canonical_val, dest, op_type)) =>
      match canonical_val with
      | LVNValue.valueUnaryOp ValueOps.id val_num =>
          let st2 := { st with var2num := insertA st.var2num dest val_num }
          (st2.generate_copy_instruction val_num dest op_type).map (fun c => (c, st2))
      | cval =>
          match lookupA st.val2num cval with
          | some val_num =>
              let st2 := { st with var2num := insertA st.var2num dest val_num }
              match st2.get_const_if_fold val_num with
              | some value => some (generate_const_instruction value dest, st2)
              | none =>
                  (st2.generate_copy_instruction val_num dest op_type).map (fun c => (c, st2))
          | none =>
              let r := st.register_val dest cval last_write
              match r.2.get_const_if_fold r.1.2 with
              | some value => some (generate_const_instruction value r.1.1, r.2)
              | none =>
                  (r.2.generate_optimized_instruction instr (some r.1.1)).map
                    (fun c => (c, r.2))

/- ## src/optimize.rs: lvn_block -/

/-- `optimize.rs::lvn_block`: run the live-in-read preamble, then map
`optimize_instruction` over the block zipped with the last-write marks. -/
def lvn_block (block : BasicBlock) (folding : Bool) : Option BasicBlock :=
  let st0 := (read_first block).foldl (fun st v =>
      let p := LVN.register_var st v
      (LVN.register_dest p.2 v p.1 true).2)
    (LVN.new folding)
  ((block.zip (last_writes block)).foldlM
      (fun (acc : BasicBlock × LVN) p =>
        (acc.2.optimize_instruction p.1 p.2).map (fun cs => (acc.1 ++ [cs.1], cs.2)))
      ([], st0)).map
    Prod.fst

/- ## Claim C4: the LVN preamble ignores Effect arguments -/

/-- A block whose only read of `x` is as the argument of an `Effect`
(`print x`), before any local write. -/
def c4Block : BasicBlock :=
  [Code.instr (Instruction.effect EffectOps.print ["x"] [] [])]

/-- A control block: when the same variable is read by a `Value`
instruction, `read_first` does pick it up. -/
def c4BlockValue : BasicBlock :=
  [Code.instr (Instruction.value ValueOps.id "y" Typ.int ["x"] [] [])]

/-- Claim C4 fails on the code: `read_first` scans only `Value`
instructions, so a variable read exclusively by an `Effect` before any
local write gets no fresh number — and `lvn_block` then panics
(`var2num.get(arg).unwrap()` in `replace_args`), modelled as `none`.
The `Value`-read control shows the preamble otherwise behaving as
claimed. -/
theorem read_first_ignores_effect_args :
    read_first c4Block = [] ∧
    lvn_block c4Block false = none ∧
    read_first c4BlockValue = ["x"] ∧
    lvn_block c4BlockValue false =
      some [Code.instr (Instruction.value ValueOps.id "y" Typ.int ["x"] [] [])] := by
  refine ⟨by decide, by decide, by decide, by decide⟩

/- ## Claim C5: only Add and Mul are canonicalized commutatively -/

/-- An LVN state binding `a ↦ 0` and `b ↦ 1`. -/
def c5St : LVN :=
  { next := 2, folding := false, var2num := [("a", 0), ("b", 1)], val2num := [],
    num2var := [(0, "a"), (1, "b")], num2const := [] }

/-- Claim C5 as stated is false on the code: for `Eq` (claimed
commutative) the operand numbers are not sorted, so `a == b` and
`b == a` canonicalize to different LVN values. -/
theorem lvn_commutative_counterexample :
    LVN.canonicalize_instruction c5St
        (Code.instr (Instruction.value ValueOps.eq "c" Typ.bool ["b", "a"] [] []))
      = some (some (LVNValue.valueBinaryOp ValueOps.eq 1 0, "c", Typ.bool)) ∧
    LVN.canonicalize_instruction c5St
        (Code.instr (Instruction.value ValueOps.eq "c" Typ.bool ["a", "b"] [] []))
      = some (some (LVNValue.valueBinaryOp ValueOps.eq 0 1, "c", Typ.bool)) ∧
    LVNValue.valueBinaryOp ValueOps.eq 1 0 ≠ LVNValue.valueBinaryOp ValueOps.eq 0 1 := by
  refine ⟨by decide, by decide, by decide⟩

/-- Claim C5, amended: only the binary operations `Add` and `Mul` have
their operand value numbers stored in ascending order, so exactly for
them commuted expressions canonicalize identically. -/
theorem lvn_add_mul_sorted (st : LVN) (op : ValueOps)
    (hop : op = ValueOps.add ∨ op = ValueOps.mul)
    (dest : String) (t : Typ) (x y : String) (fs ls : List String) {nx ny : Nat}
    (hx : lookupA st.var2num x = some nx) (hy : lookupA st.var2num y = some ny) :
    LVN.canonicalize_instruction st
        (Code.instr (Instruction.value op dest t [x, y] fs ls))
      = some (some (LVNValue.valueBinaryOp op (min nx ny) (max nx ny), dest, t)) ∧
    LVN.canonicalize_instruction st
        (Code.instr (Instruction.value op dest t [x, y] fs ls))
      = LVN.canonicalize_instruction st
        (Code.instr (Instruction.value op dest t [y, x] fs ls)) := by
  have hno : ¬ (op = ValueOps.vnot ∨ op = ValueOps.id) := by
    rcases hop with rfl | rfl <;> rintro (h | h) <;> exact ValueOps.noConfusion h
  have hbin : op ≠ ValueOps.vnot ∧ op ≠ ValueOps.id ∧ op ≠ ValueOps.call := by
    rcases hop with rfl | rfl <;> exact ⟨fun h => ValueOps.noConfusion h,
      fun h => ValueOps.noConfusion h, fun h => ValueOps.noConfusion h⟩
  have key : ∀ (a0 a1 : String) (n0 n1 : Nat),
      lookupA st.var2num a0 = some n0 → lookupA st.var2num a1 = some n1 →
      LVN.canonicalize_instruction st
          (Code.instr (Instruction.value op dest t [a0, a1] fs ls))
        = some (some (LVNValue.valueBinaryOp op (min n0 n1) (max n0 n1), dest, t)) := by
    intro a0 a1 n0 n1 h0 h1
    simp only [LVN.canonicalize_instruction, if_neg hno, if_pos hbin, List.get?, h0, h1,
      if_pos hop]
    by_cases hlt : n0 > n1
    · rw [if_pos hlt]
      have e1 : min n0 n1 = n1 := by omega
      have e2 : max n0 n1 = n0 := by omega
      rw [e1, e2]
    · rw [if_neg hlt]
      have e1 : min n0 n1 = n0 := by omega
      have e2 : max n0 n1 = n1 := by omega
      rw [e1, e2]
  refine ⟨key x y nx ny hx hy, ?_⟩
  rw [key x y nx ny hx hy, key y x ny nx hy hx]
  rw [Nat.min_comm, Nat.max_comm]

theorem lvn_add_mul_sorted_witness :
    LVN.canonicalize_instruction c5St
        (Code.instr (Instruction.value ValueOps.add "c" Typ.int ["b", "a"] [] []))
      = some (some (LVNValue.valueBinaryOp ValueOps.add (min 1 0) (max 1 0), "c", Typ.int)) ∧
    LVN.canonicalize_instruction c5St
        (Code.instr (Instruction.value ValueOps.add "c" Typ.int ["b", "a"] [] []))
      = LVN.canonicalize_instruction c5St
        (Code.instr (Instruction.value ValueOps.add "c" Typ.int ["a", "b"] [] [])) :=
  lvn_add_mul_sorted c5St ValueOps.add (Or.inl rfl) "c" Typ.int "b" "a" [] []
    (by decide) (by decide)

/- ## Claim C10: division by a known zero is never folded -/

theorem lookupA_map_replace {κ α : Type} [DecidableEq κ] (k k' : κ) (v : α) (h : k' ≠ k) :
    ∀ (m : List (κ × α)),
      lookupA (m.map (fun p => if p.1 = k then (k, v) else p)) k' = lookupA m k'
  | [] => rfl
  | q :: m => by
      by_cases hq : q.1 = k
      · rw [List.map_cons, if_pos hq, lookupA_cons, lookupA_cons,
          lookupA_map_replace k k' v h m]
        have h1 : ¬ ((k, v) : κ × α).1 = k' := fun hh => h hh.symm
        have h2 : ¬ q.1 = k' := by
          rw [hq]
          exact fun hh => h hh.symm
        rw [if_neg h1, if_neg h2]
      · rw [List.map_cons, if_neg hq, lookupA_cons, lookupA_cons,
          lookupA_map_replace k k' v h m]

theorem insertA_cons_ne {κ α : Type} [DecidableEq κ] {p : κ × α} {m : List (κ × α)}
    {k : κ} (v : α) (h : ¬ p.1 = k) :
    insertA (p :: m) k v = p :: insertA m k v := by
  rw [insertA, insertA, List.find?_cons]
  rw [show (decide (p.1 = k)) = false by simp [h]]
  by_cases hm : (m.find? (fun q => decide (q.1 = k))).isSome
  · rw [if_pos hm, if_pos hm, List.map_cons, if_neg h]
  · rw [if_neg hm, if_neg hm, List.cons_append]

theorem insertA_cons_eq {κ α : Type} [DecidableEq κ] {p : κ × α} {m : List (κ × α)}
    {k : κ} (v : α) (h : p.1 = k) :
    insertA (p :: m) k v = (k, v) :: m.map (fun q => if q.1 = k then (k, v) else q) := by
  rw [insertA, List.find?_cons]
  rw [show (decide (p.1 = k)) = true by simp [h]]
  rw [if_pos (by rfl), List.map_cons, if_pos h]

theorem lookupA_insertA {κ α : Type} [DecidableEq κ] (k k' : κ) (v : α) :
    ∀ (m : List (κ × α)),
      lookupA (insertA m k v) k' = if k' = k then some v else lookupA m k'
  | [] => by
      rw [show insertA ([] : List (κ × α)) k v = [(k, v)] from rfl, lookupA_cons]
      by_cases h : k' = k
      · rw [if_pos (show ((k, v) : κ × α).1 = k' from h.symm), if_pos h]
      · rw [if_neg (show ¬ ((k, v) : κ × α).1 = k' from fun hh => h hh.symm), if_neg h]
  | p :: m => by
      by_cases hp : p.1 = k
      · rw [insertA_cons_eq v hp, lookupA_cons]
        by_cases h : k' = k
        · subst h
          rw [if_pos rfl, if_pos rfl]
        · rw [if_neg (fun hh : k = k' => h hh.symm), if_neg h]
          rw [lookupA_map_replace k k' v h m, lookupA_cons]
          rw [if_neg (fun hh : p.1 = k' => h (hp ▸ hh ▸ rfl))]
      · rw [insertA_cons_ne v hp, lookupA_cons, lookupA_cons, lookupA_insertA k k' v m]
        by_cases h : k' = k
        · subst h
          rw [if_pos rfl, if_pos rfl, if_neg hp]
        · rw [if_neg h, if_neg h]

/-- `fold_value` records nothing for an integer division whose divisor's
value number is the known constant `0`. -/
theorem fold_value_div_zero (st : LVN) {nx ny : Nat}
    (hzero : lookupA st.num2const ny = some (Literal.int 0)) (num : Nat) :
    st.fold_value num (LVNValue.valueBinaryOp ValueOps.div nx ny) = st := by
  rw [show st.fold_value num (LVNValue.valueBinaryOp ValueOps.div nx ny) =
      (match lookupA st.num2const nx, lookupA st.num2const ny with
       | some v0, some v1 =>
           match calculate_binary_op ValueOps.div v0 v1 with
           | some v => { st with num2const := insertA st.num2const num v }
           | none => st
       | _, _ =>
           if nx = ny then
             if ValueOps.div = ValueOps.eq ∨ ValueOps.div = ValueOps.le ∨
                 ValueOps.div = ValueOps.ge then
               { st with num2const := insertA st.num2const num (Literal.bool true) }
             else st
           else if ValueOps.div = ValueOps.vor ∧
               (lookupA st.num2const nx = some (Literal.bool true) ∨
                lookupA st.num2const ny = some (Literal.bool true)) then
             { st with num2const := insertA st.num2const num (Literal.bool true) }
           else if ValueOps.div = ValueOps.vand ∧
               (lookupA st.num2const nx = some (Literal.bool false) ∨
                lookupA st.num2const ny = some (Literal.bool false)) then
             { st with num2const := insertA st.num2const num (Literal.bool false) }
           else st) from rfl]
  cases hv0 : lookupA st.num2const nx with
  | some v0 =>
      rw [hzero]
      cases v0 with
      | int k =>
          show (match calculate_binary_op ValueOps.div (Literal.int k) (Literal.int 0) with
            | some v => { st with num2const := insertA st.num2const num v }
            | none => st) = st
          rw [show calculate_binary_op ValueOps.div (Literal.int k) (Literal.int 0)
            = none by rw [calculate_binary_op]; rw [if_pos rfl]]
      | bool b => rfl
  | none =>
      rw [hzero]
      show (if nx = ny then _ else _) = st
      have hne : ¬ nx = ny := by
        intro h
        rw [h, hzero] at hv0
        exact Option.noConfusion hv0
      rw [if_neg hne]
      rw [if_neg (by rintro ⟨h, _⟩; exact ValueOps.noConfusion h)]
      rw [if_neg (by rintro ⟨h, _⟩; exact ValueOps.noConfusion h)]

/-- Claim C10: an integer division whose divisor is the known constant
zero is never folded — no constant is recorded for its value number
(`num2const` is untouched) and the division instruction is emitted with
its op intact, its arguments rewritten through the value table, and the
destination chosen by the last-write rule. -/
theorem lvn_div_by_zero_not_folded (st : LVN) (dest : String) (t : Typ) (x y : String)
    (fs ls : List String) (lw : Bool) {nx ny : Nat} {vx vy : String}
    (hx : lookupA st.var2num x = some nx) (hy : lookupA st.var2num y = some ny)
    (hzero : lookupA st.num2const ny = some (Literal.int 0))
    (hfresh : lookupA st.val2num (LVNValue.valueBinaryOp ValueOps.div nx ny) = none)
    (hnext : lookupA st.num2const st.next = none)
    (hxd : x ≠ dest) (hyd : y ≠ dest) (hnxn : nx ≠ st.next)
    (hvx : lookupA st.num2var nx = some vx) (hvy : lookupA st.num2var ny = some vy) :
    ∃ st2 : LVN,
      LVN.optimize_instruction st
          (Code.instr (Instruction.value ValueOps.div dest t [x, y] fs ls)) lw
        = some (Code.instr (Instruction.value ValueOps.div
            (if lw then dest else "lvn." ++ toString st.next) t [vx, vy] fs ls), st2) ∧
      st2.num2const = st.num2const ∧
      lookupA st2.num2const st.next = none := by
  have hnyn : ny ≠ st.next := by
    intro h
    rw [h, hnext] at hzero
    exact Option.noConfusion hzero
  have c1 : ¬ (ValueOps.div = ValueOps.vnot ∨ ValueOps.div = ValueOps.id) := by decide
  have c2 : ValueOps.div ≠ ValueOps.vnot ∧ ValueOps.div ≠ ValueOps.id ∧
      ValueOps.div ≠ ValueOps.call := by decide
  have c3 : ¬ (ValueOps.div = ValueOps.add ∨ ValueOps.div = ValueOps.mul) := by decide
  have hcanon : LVN.canonicalize_instruction st
      (Code.instr (Instruction.value ValueOps.div dest t [x, y] fs ls))
    = some (some (LVNValue.valueBinaryOp ValueOps.div nx ny, dest, t)) := by
    simp only [LVN.canonicalize_instruction, List.get?, if_neg c1, if_pos c2, if_neg c3, hx, hy]
  refine ⟨{ next := st.next + 1, folding := st.folding,
            var2num := insertA st.var2num dest st.next,
            val2num := insertA st.val2num (LVNValue.valueBinaryOp ValueOps.div nx ny) st.next,
            num2var := insertA st.num2var st.next (if lw then dest else "lvn." ++ toString st.next),
            num2const := st.num2const }, ?_, rfl, hnext⟩
  simp only [LVN.optimize_instruction, hcanon, hfresh, LVN.register_val, LVN.register_var,
    LVN.register_dest]
  have hrw := @fold_value_div_zero
    ⟨st.next + 1, st.folding, insertA st.var2num dest st.next,
     st.val2num, st.num2var, st.num2const⟩ nx ny hzero st.next
  rw [hrw]
  have hfold : ∀ s : LVN, s.num2const = st.num2const →
      LVN.get_const_if_fold s st.next = none := by
    intro s hs
    cases hb : s.folding
    · simp [LVN.get_const_if_fold, hb]
    · simp [LVN.get_const_if_fold, hb, hs, hnext]
  dsimp only
  rw [hfold ⟨st.next + 1, st.folding, insertA st.var2num dest st.next,
    insertA st.val2num (LVNValue.valueBinaryOp ValueOps.div nx ny) st.next,
    insertA st.num2var st.next (if lw then dest else "lvn." ++ toString st.next),
    st.num2const⟩ rfl]
  have hpair : ∀ {α β : Type} (f : α → Option β) (a b : α),
      List.mapM f [a, b] = (f a).bind (fun u => (f b).map (fun v => [u, v])) := by
    intro α β f a b
    cases hfa : f a <;> cases hfb : f b <;>
      simp [List.mapM, List.mapM.loop, hfa, hfb]
  have hargs : LVN.replace_args
      ⟨st.next + 1, st.folding, insertA st.var2num dest st.next,
       insertA st.val2num (LVNValue.valueBinaryOp ValueOps.div nx ny) st.next,
       insertA st.num2var st.next (if lw then dest else "lvn." ++ toString st.next),
       st.num2const⟩ [x, y] = some [vx, vy] := by
    rw [LVN.replace_args, hpair]
    simp only [lookupA_insertA, if_neg hxd, if_neg hyd, hx, hy, Option.some_bind,
      if_neg hnxn, if_neg hnyn, hvx, hvy, Option.map_some']
  simp only [LVN.generate_optimized_instruction, hargs, Option.map_some']

/-- A concrete LVN state: `x ↦ #0` (constant 7), `y ↦ #1` (constant 0). -/
def c10St : LVN :=
  ⟨2, true, [("x", 0), ("y", 1)], [], [(0, "x"), (1, "y")],
   [(0, Literal.int 7), (1, Literal.int 0)]⟩

theorem lvn_div_by_zero_not_folded_witness :
    ∃ st2 : LVN,
      LVN.optimize_instruction c10St
          (Code.instr (Instruction.value ValueOps.div "d" Typ.int ["x", "y"] [] [])) true
        = some (Code.instr
            (Instruction.value ValueOps.div "d" Typ.int ["x", "y"] [] []), st2) ∧
      st2.num2const = c10St.num2const ∧
      lookupA st2.num2const c10St.next = none := by
  exact @lvn_div_by_zero_not_folded c10St "d" Typ.int "x" "y" [] [] true 0 1 "x" "y"
    (by decide) (by decide) (by decide) (by decide) (by decide)
    (by decide) (by decide) (by decide) (by decide) (by decide)

/-! ### Dead store elimination (`optimize.rs::dead_store_elim`) -/

/-- `HashMap::remove` on the association-list model. -/
def eraseA {κ α : Type} [DecidableEq κ] (m : List (κ × α)) (k : κ) : List (κ × α) :=
  m.filter (fun p => p.1 ≠ k)

/-- The variables an instruction reads (the `args` of `Value`/`Effect`). -/
def usesOf : Code → List String
  | Code.instr (Instruction.value _ _ _ args _ _) => args
  | Code.instr (Instruction.effect _ args _ _) => args
  | _ => []

/-- The variable an instruction writes (the `dest` of `Constant`/`Value`). -/
def defOf : Code → Option String
  | Code.instr (Instruction.const dest _ _) => some dest
  | Code.instr (Instruction.value _ dest _ _ _ _) => some dest
  | _ => none

/-- `Vec::remove`, which panics (`none`) when the index is out of bounds. -/
def removeAt {α : Type} (l : List α) (i : Nat) : Option (List α) :=
  if i < l.length then some (l.eraseIdx i) else none

/-- The body of the fold inside `dead_store_elim` (optimize.rs:61-83): erase
every variable the instruction reads from `unused_defs`; then, if the
instruction defines `dest` and `unused_defs` holds a line for `dest`, remove
that line index from the *current* (already shrunk) block and record line
`i` for `dest`. -/
def dse_step (acc : List Code × List (String × Nat)) (p : Nat × Code) :
    Option (List Code × List (String × Nat)) :=
  let unused1 := (usesOf p.2).foldl (fun u var => eraseA u var) acc.2
  match defOf p.2 with
  | none => some (acc.1, unused1)
  | some dest =>
      match lookupA unused1 dest with
      | some j =>
          match removeAt acc.1 j with
          | none => none
          | some block2 => some (block2, insertA unused1 dest p.1)
      | none => some (acc.1, insertA unused1 dest p.1)

/-- One iteration of `dead_store_elim`'s `loop`: the enumerate-fold over
`last` starting from `(last.clone(), HashMap::new())`. -/
def dse_pass (last : List Code) : Option (List Code) :=
  (last.enum.foldlM dse_step (last, ([] : List (String × Nat)))).map Prod.fst

/-- The fixpoint loop of `dead_store_elim` with explicit fuel; `PRes.panic`
models the `Vec::remove` out-of-bounds panic. -/
def dseLoop : Nat → List Code → Option (PRes (List Code))
  | 0, _ => none
  | fuel + 1, last =>
      match dse_pass last with
      | none => some PRes.panic
      | some block => if block = last then some (PRes.ok last) else dseLoop fuel block

/-- `optimize.rs::dead_store_elim`. -/
def dead_store_elim (b : BasicBlock) (fuel : Nat) : Option (PRes BasicBlock) :=
  dseLoop fuel b

/-- Interleaved dead stores to two variables. -/
def c7Block : BasicBlock :=
  [Code.instr (Instruction.const "a" Typ.int (Literal.int 1)),
   Code.instr (Instruction.const "b" Typ.int (Literal.int 1)),
   Code.instr (Instruction.const "a" Typ.int (Literal.int 2)),
   Code.instr (Instruction.const "b" Typ.int (Literal.int 2)),
   Code.instr (Instruction.effect EffectOps.print ["a", "b"] [] [])]

/-- Claim C7: `dead_store_elim` is claimed to delete only dead writes — the
earlier write to a variable that is redefined with no intervening use.  On
`c7Block` (`a:=1; b:=1; a:=2; b:=2; print a b`) the converged result drops
`a := 2`, the *live* write at line 2: `a` is never redefined after line 2
and is read by the final `print`.  The recorded index of `b`'s dead write is
relative to the original block, but `Vec::remove` is applied to the already
shrunk block, deleting the wrong instruction. -/
theorem dead_store_elim_failing :
    dead_store_elim c7Block 4
      = some (PRes.ok
          [Code.instr (Instruction.const "b" Typ.int (Literal.int 2)),
           Code.instr (Instruction.effect EffectOps.print ["a", "b"] [] [])]) ∧
    c7Block.get? 2 = some (Code.instr (Instruction.const "a" Typ.int (Literal.int 2))) ∧
    (c7Block.drop 3).all (fun c => decide (defOf c ≠ some "a")) = true ∧
    (c7Block.drop 3).any (fun c => decide ("a" ∈ usesOf c)) = true ∧
    Code.instr (Instruction.const "a" Typ.int (Literal.int 2)) ∉
      [Code.instr (Instruction.const "b" Typ.int (Literal.int 2)),
       Code.instr (Instruction.effect EffectOps.print ["a", "b"] [] [])] := by
  decide

/-! ### SSA phi placement (`ssa.rs::convert_to_ssa`, lines 100-159) -/

/-- The `orig_var_names` set of `convert_to_ssa` (ssa.rs:45-58): every
`dest` in the function's instruction stream plus the argument names, in
first-insertion order. -/
def orig_var_names (func : Function) : List String :=
  (func.instrs.filterMap defOf ++ func.args.map FuncArg.name).foldl insertS []

/-- One entry of `var_defs` (ssa.rs:61-98): the (defining block name, type)
pairs for `var`, scanning the expanded blocks in order. -/
def var_defs_entry (func : Function) (var : String) : List (String × Typ) :=
  ((expanded_basic_blocks func).enum.map (fun p =>
    p.2.filterMap (fun code =>
      match code with
      | Code.instr (Instruction.const dest const_type _) =>
          if dest = var then some (get_block_name p.2 p.1 func.name, const_type) else none
      | Code.instr (Instruction.value _ dest op_type _ _ _) =>
          if dest = var then some (get_block_name p.2 p.1 func.name, op_type) else none
      | _ => none))).flatten

/-- The initial `var_defs` map of `convert_to_ssa`. -/
def init_var_defs (func : Function) : List (String × List (String × Typ)) :=
  (orig_var_names func).map (fun var => (var, var_defs_entry func var))

/-- A phi instruction for any destination. -/
def is_phi : Code → Bool
  | Code.instr (Instruction.value ValueOps.phi _ _ _ _ _) => true
  | _ => false

/-- A phi instruction whose destination is `var`. -/
def is_phi_for (var : String) : Code → Bool
  | Code.instr (Instruction.value ValueOps.phi dest _ _ _ _) => decide (dest = var)
  | _ => false

/-- The phi instruction `convert_to_ssa` inserts (ssa.rs:139-150): empty
`args`/`funcs`/`labels`, destination `var`, the definition's type. -/
def mkPhi (var : String) (op_type : Typ) : Code :=
  Code.instr (Instruction.value ValueOps.phi var op_type [] [] [])

/-- The innermost loop body of the phi-placement pass (ssa.rs:103-157), for
one frontier block `sub_block_name` of one definition of `var`.  `none`
models the `block_map[...]`/`blocks[...][0]` index panics.  The three
`continue`s of the source: first block item is a label and the block is
shorter than 2; first item is a label and the second item is a phi (for
*any* variable); a phi for `var` already sits anywhere in the block. -/
def phi_insert_frontier (block_map : List (String × Nat)) (var : String) (op_type : Typ)
    (st : List BasicBlock × List (String × List (String × Typ))) (sub_block_name : String) :
    Option (List BasicBlock × List (String × List (String × Typ))) :=
  match lookupA block_map sub_block_name with
  | none => none
  | some sub_block_idx =>
      match st.1.get? sub_block_idx with
      | none => none
      | some sb =>
          match sb.get? 0 with
          | none => none
          | some c0 =>
              let phi_at1 := match sb.get? 1 with
                | some c1 => is_phi c1
                | none => false
              if is_label c0 && decide (sb.length < 2) then some st
              else if is_label c0 && phi_at1 then some st
              else
                let phi_idx := if is_label c0 then 1 else 0
                if (sb.find? (is_phi_for var)).isSome then some st
                else
                  match lookupA st.2 var with
                  | none => none
                  | some defs =>
                      some (st.1.set sub_block_idx (sb.insertIdx phi_idx (mkPhi var op_type)),
                            insertA st.2 var (defs ++ [(sub_block_name, op_type)]))

/-- ssa.rs:103: iterate one definition's dominance-frontier blocks; `none`
models the `frontier[def_block_name]` index panic. -/
def phi_insert_def (frontier : List (String × List String)) (block_map : List (String × Nat))
    (var : String) (st : List BasicBlock × List (String × List (String × Typ)))
    (d : String × Typ) : Option (List BasicBlock × List (String × List (String × Typ))) :=
  match lookupA frontier d.1 with
  | none => none
  | some subs => subs.foldlM (phi_insert_frontier block_map var d.2) st

/-- ssa.rs:102: iterate the *cloned* definition list of `var` (additions
made while iterating are not revisited). -/
def phi_insert_var (frontier : List (String × List String)) (block_map : List (String × Nat))
    (st : List BasicBlock × List (String × List (String × Typ))) (var : String) :
    Option (List BasicBlock × List (String × List (String × Typ))) :=
  match lookupA st.2 var with
  | none => none
  | some defs => defs.foldlM (phi_insert_def frontier block_map var) st

/-- The phi-placement pass of `convert_to_ssa` (ssa.rs:100-159): outer
`none` is fuel exhaustion of the dominators fixpoint, `PRes.panic` a
runtime index panic. -/
def place_phis (func : Function) (fuel : Nat) :
    Option (PRes (List BasicBlock × List (String × List (String × Typ)))) :=
  match dominance_frontier func fuel with
  | none => none
  | some frontier =>
      match (orig_var_names func).foldlM
          (phi_insert_var frontier (block_name_to_idx func))
          (expanded_basic_blocks func, init_var_defs func) with
      | none => some PRes.panic
      | some st => some (PRes.ok st)

/-- A diamond in which both `x` and `y` are defined on both branches, so
both need a phi at the join `M`. -/
def c6F : Function :=
  { name := "main",
    args := [⟨"c", Typ.bool⟩],
    return_type := none,
    instrs :=
      [ Code.instr (Instruction.effect EffectOps.branch ["c"] [] ["L", "R"]),
        Code.label "L",
        Code.instr (Instruction.const "x" Typ.int (Literal.int 1)),
        Code.instr (Instruction.const "y" Typ.int (Literal.int 1)),
        Code.instr (Instruction.effect EffectOps.jump [] [] ["M"]),
        Code.label "R",
        Code.instr (Instruction.const "x" Typ.int (Literal.int 2)),
        Code.instr (Instruction.const "y" Typ.int (Literal.int 2)),
        Code.instr (Instruction.effect EffectOps.jump [] [] ["M"]),
        Code.label "M",
        Code.instr (Instruction.effect EffectOps.print ["x", "y"] [] []),
        Code.instr (Instruction.effect EffectOps.ret [] [] []) ] }

/-- The blocks the phi-placement pass produces on `c6F`. -/
def c6Blocks : List BasicBlock :=
  [[Code.label "entry"],
   [Code.instr (Instruction.effect EffectOps.branch ["c"] [] ["L", "R"])],
   [Code.label "L",
    Code.instr (Instruction.const "x" Typ.int (Literal.int 1)),
    Code.instr (Instruction.const "y" Typ.int (Literal.int 1)),
    Code.instr (Instruction.effect EffectOps.jump [] [] ["M"])],
   [Code.label "R",
    Code.instr (Instruction.const "x" Typ.int (Literal.int 2)),
    Code.instr (Instruction.const "y" Typ.int (Literal.int 2)),
    Code.instr (Instruction.effect EffectOps.jump [] [] ["M"])],
   [Code.label "M",
    Code.instr (Instruction.value ValueOps.phi "x" Typ.int [] [] []),
    Code.instr (Instruction.effect EffectOps.print ["x", "y"] [] []),
    Code.instr (Instruction.effect EffectOps.ret [] [] [])],
   [Code.label "exit"]]

/-- The final `var_defs` map on `c6F`. -/
def c6Defs : List (String × List (String × Typ)) :=
  [("x", [("L", Typ.int), ("R", Typ.int), ("M", Typ.int)]),
   ("y", [("L", Typ.int), ("R", Typ.int)]),
   ("c", [])]

set_option synthInstance.maxSize 512 in
/-- Claim C6 counterexample: on `c6F`, `y` is defined in block `L`, `M` is
in `L`'s dominance frontier and holds no phi for `y`, yet the phi-placement
pass never inserts one — after `x`'s phi occupies position 1 of `M`, the
"second item is a phi" test skips every later variable's insertion into
`M`. -/
theorem convert_to_ssa_phi_counterexample :
    place_phis c6F 8 = some (PRes.ok (c6Blocks, c6Defs)) ∧
    ("L", Typ.int) ∈ var_defs_entry c6F "y" ∧
    (dominance_frontier c6F 8).map (fun fr => lookupA fr "L") = some (some ["M"]) ∧
    lookupA (block_name_to_idx c6F) "M" = some 4 ∧
    (c6Blocks.getD 4 []).any (is_phi_for "x") = true ∧
    (c6Blocks.getD 4 []).any (is_phi_for "y") = false := by
  decide

/-- Claim C6 (amended): the phi-placement step leaves the state unchanged
(skips the insertion) exactly when the frontier block starts with a label
and is either shorter than two items or has *any* phi as its second item,
or a phi for the variable itself already sits anywhere in the block;
otherwise the step either inserts (changing the state) or panics. -/
theorem phi_insert_frontier_skips (block_map : List (String × Nat)) (var : String)
    (op_type : Typ) (st : List BasicBlock × List (String × List (String × Typ)))
    (sub : String) {idx : Nat} {sb : List Code} {c0 : Code}
    (hidx : lookupA block_map sub = some idx)
    (hsb : st.1.get? idx = some sb)
    (h0 : sb.get? 0 = some c0) :
    phi_insert_frontier block_map var op_type st sub = some st ↔
      (is_label c0 = true ∧
        (sb.length < 2 ∨ ∃ c1, sb.get? 1 = some c1 ∧ is_phi c1 = true)) ∨
      (sb.find? (is_phi_for var)).isSome = true := by
  have hlen : idx < st.1.length := by
    rcases List.get?_eq_some.1 hsb with ⟨h, _⟩
    exact h
  have hinsert : ∀ (n : Nat), n ≤ sb.length →
      ¬ (st.1.set idx (sb.insertIdx n (mkPhi var op_type)) = st.1) := by
    intro n hn hcontra
    have h1 : (st.1.set idx (sb.insertIdx n (mkPhi var op_type))).get? idx
        = some (sb.insertIdx n (mkPhi var op_type)) := by
      rw [List.get?_eq_getElem?]
      exact List.getElem?_set_eq_of_lt _ hlen
    rw [hcontra, hsb] at h1
    have h2 := congrArg List.length (Option.some.inj h1)
    rw [List.length_insertIdx n sb hn] at h2
    omega
  simp only [phi_insert_frontier, hidx, hsb, h0]
  cases hl : is_label c0
  · simp only [Bool.false_and, if_neg (Bool.false_ne_true)]
    by_cases hf : (sb.find? (is_phi_for var)).isSome = true
    · rw [if_pos hf]
      simp [hf]
    · rw [if_neg hf]
      constructor
      · intro h
        cases hv : lookupA st.2 var
        · rw [hv] at h
          exact Option.noConfusion h
        · rw [hv] at h
          have h' := congrArg (Option.map Prod.fst) h
          simp only [Option.map_some'] at h'
          exact absurd (Option.some.inj h') (hinsert 0 (Nat.zero_le _))
      · rintro (⟨hlt, _⟩ | hfp)
        · exact absurd hlt Bool.false_ne_true
        · exact absurd hfp hf
  · simp only [Bool.true_and]
    by_cases h2 : sb.length < 2
    · rw [if_pos (decide_eq_true h2)]
      constructor
      · intro _
        exact Or.inl ⟨trivial, Or.inl h2⟩
      · intro _
        rfl
    · rw [if_neg (by simpa using h2)]
      cases h1 : sb.get? 1 with
      | none =>
          exact absurd (List.get?_eq_none.1 h1) (by omega)
      | some c1 =>
          cases hp1 : is_phi c1
          · rw [if_neg (by simp [hp1])]
            by_cases hf : (sb.find? (is_phi_for var)).isSome = true
            · rw [if_pos hf]
              simp [hf]
            · rw [if_neg hf]
              constructor
              · intro h
                cases hv : lookupA st.2 var
                · rw [hv] at h
                  exact Option.noConfusion h
                · rw [hv] at h
                  have h' := congrArg (Option.map Prod.fst) h
                  simp only [Option.map_some'] at h'
                  exact absurd (Option.some.inj h') (hinsert 1 (by omega))
              · rintro (⟨_, hor⟩ | hfp)
                · rcases hor with hlt | ⟨c1', hc1', hph⟩
                  · omega
                  · have hc := Option.some.inj hc1'
                    rw [← hc, hp1] at hph
                    exact Bool.noConfusion hph
                · exact absurd hfp hf
          · rw [if_pos (by simp [hp1])]
            constructor
            · intro _
              exact Or.inl ⟨trivial, Or.inr ⟨c1, rfl, hp1⟩⟩
            · intro _
              rfl

theorem phi_insert_frontier_skips_witness :
    lookupA [("M", (0 : Nat))] "M" = some 0 ∧
    ([[Code.label "M", mkPhi "x" Typ.int]],
      ([] : List (String × List (String × Typ)))).1.get? 0
        = some [Code.label "M", mkPhi "x" Typ.int] ∧
    ([Code.label "M", mkPhi "x" Typ.int] : List Code).get? 0 = some (Code.label "M") ∧
    (phi_insert_frontier [("M", 0)] "y" Typ.int
        ([[Code.label "M", mkPhi "x" Typ.int]], []) "M"
      = some ([[Code.label "M", mkPhi "x" Typ.int]], []) ↔
      (is_label (Code.label "M") = true ∧
        (([Code.label "M", mkPhi "x" Typ.int] : List Code).length < 2 ∨
         ∃ c1, ([Code.label "M", mkPhi "x" Typ.int] : List Code).get? 1 = some c1 ∧
           is_phi c1 = true)) ∨
      (([Code.label "M", mkPhi "x" Typ.int] : List Code).find? (is_phi_for "y")).isSome
        = true) :=
  ⟨by decide, by decide, by decide,
   @phi_insert_frontier_skips [("M", 0)] "y" Typ.int
     ([[Code.label "M", mkPhi "x" Typ.int]], []) "M"
     0 [Code.label "M", mkPhi "x" Typ.int] (Code.label "M")
     (by decide) (by decide) (by decide)⟩

end Brilopt
